import Mathlib

/-!
# Verification of the TiKi-Crawling pipeline (`src/Tiki_Crawling.py`)

Shallow embedding of the crawler's pure core, together with proofs of the
frozen claims about it.  Python values parsed from JSON-LD blocks are
modelled by the tagged variant `PyVal` (numbers as integers: no claim
involves floating point).  Fallible Python code (code that can raise) is
modelled with `Except String`.  Python strings are Lean `String`s except
in the URL component, which works over `List Char` for ease of induction.
-/

set_option autoImplicit false

/-! ## Python value model -/

/-- An untyped Python value as produced by `json.loads`:
`None | bool | int | str | list | dict`.  JSON numbers are modelled as
integers. -/
inductive PyVal where
  | none : PyVal
  | bool : Bool → PyVal
  | int : Int → PyVal
  | str : String → PyVal
  | list : List PyVal → PyVal
  | dict : List (String × PyVal) → PyVal

/-- Python truthiness: `None`, `False`, `0`, `""`, `[]`, `{}` are falsy. -/
def truthy : PyVal → Bool
  | .none => false
  | .bool b => b
  | .int n => n != 0
  | .str s => s ≠ ""
  | .list xs => !xs.isEmpty
  | .dict kvs => !kvs.isEmpty

/-- Python `a or b`: `a` if truthy, else `b`. -/
def pyOr (a b : PyVal) : PyVal := if truthy a then a else b

/-- `d[k]` lookup on a dict, as an `Option` (dicts have unique keys; we use
the first matching entry of the association list). -/
def dlookup (kvs : List (String × PyVal)) (k : String) : Option PyVal :=
  (kvs.find? (fun p => p.1 == k)).map (·.2)

/-- Python `dict.get(k, default)`: the stored value when the key is present
(even when that value is `None`), else the default. -/
def pyDictGet (kvs : List (String × PyVal)) (k : String) (dflt : PyVal) : PyVal :=
  match dlookup kvs k with
  | some v => v
  | none => dflt

/-- Python `dict.get(k)` (default `None`). -/
def dget (kvs : List (String × PyVal)) (k : String) : PyVal :=
  pyDictGet kvs k .none

/-- ASCII lower-casing of one character, as Python's `str.lower` does on
ASCII input (all strings involved in the claims are ASCII).  Constructed
directly so that `(lowerChar c).toNat` is definitionally `c.toNat + 32` in
the uppercase branch. -/
def lowerChar (c : Char) : Char :=
  if h : 65 ≤ c.toNat ∧ c.toNat ≤ 90 then
    ⟨⟨c.toNat + 32, by omega⟩, Or.inl (by show c.toNat + 32 < 55296; omega)⟩
  else c

/-- Python `str.lower` (ASCII model). -/
def strLower (s : String) : String := ⟨s.toList.map lowerChar⟩

/-- Characters treated as whitespace by Python's `str.strip` (ASCII part). -/
def isPySpace (c : Char) : Bool :=
  c == ' ' || c == '\t' || c == '\n' || c == '\r' || c == '\x0b' || c == '\x0c'

/-- Python `str.strip()`: drop whitespace from both ends. -/
def pyStripStr (s : String) : String :=
  ⟨((s.toList.dropWhile isPySpace).reverse.dropWhile isPySpace).reverse⟩

/-- Python `repr` of a value (used by `str` on lists/dicts).  String
escaping inside `repr` is not modelled (no claim depends on it). -/
def pyRepr : PyVal → String
  | .none => "None"
  | .bool b => if b then "True" else "False"
  | .int n => toString n
  | .str s => "'" ++ s ++ "'"
  | .list xs => "[" ++ String.intercalate ", " (pyReprList xs) ++ "]"
  | .dict kvs => "\x7b" ++ String.intercalate ", " (pyReprDict kvs) ++ "\x7d"
where
  pyReprList : List PyVal → List String
    | [] => []
    | x :: t => pyRepr x :: pyReprList t
  pyReprDict : List (String × PyVal) → List String
    | [] => []
    | (k, v) :: t => ("'" ++ k ++ "': " ++ pyRepr v) :: pyReprDict t

/-- Python `str(v)`. -/
def pyStr : PyVal → String
  | .none => "None"
  | .bool b => if b then "True" else "False"
  | .int n => toString n
  | .str s => s
  | .list xs => pyRepr (.list xs)
  | .dict kvs => pyRepr (.dict kvs)

/-! ## Output schema (`WOO_HEADERS`, line 18) -/

def WOO_HEADERS : List String :=
  ["ID", "Type", "SKU", "Name", "Published", "Is featured?", "Visibility in catalog",
   "Short description", "Description", "Date sale price starts", "Date sale price ends",
   "Tax status", "Tax class", "In stock?", "Stock", "Low stock amount", "Backorders allowed?",
   "Sold individually?", "Weight(kg)", "Length(cm)", "Width(cm)", "Height(cm)",
   "Allow customer reviews?", "Purchase note", "Sale price", "Regular price", "Categories",
   "Tags", "Shipping class", "Images", "Download limit", "Download expiry days", "Parent",
   "Grouped products", "Upsells", "Cross-sells", "External URL", "Button text", "Position"]

/-! ## JSON-LD helpers (lines 107–135) -/

/-- One parsed block's contribution to the object list (lines 117–122):
a dict with a `"@graph"` list is flattened to that list, a list is
flattened, anything else contributes itself. -/
def aggregate (d : PyVal) : List PyVal :=
  match d with
  | .dict kvs =>
      match dget kvs "@graph" with
      | .list g => g
      | _ => [d]
  | .list l => l
  | _ => [d]

/-- `parse_ldjson_all` (lines 107–123), abstracted over `json.loads`
(modelled as `loads : String → Option PyVal`; `none` is a
`json.JSONDecodeError`).  Each block is its raw text (`tag.string or
tag.get_text()`); empty text is skipped.  A failed parse of the raw text is
retried on the stripped text; a failure of that second parse propagates
(the source's second `json.loads` is not guarded by a `try`). -/
def parse_ldjson_all (loads : String → Option PyVal) : List String → Except String (List PyVal)
  | [] => .ok []
  | raw :: rest =>
      if raw = "" then parse_ldjson_all loads rest
      else
        match loads raw with
        | some d => (aggregate d ++ ·) <$> parse_ldjson_all loads rest
        | Option.none =>
            match loads (pyStripStr raw) with
            | some d => (aggregate d ++ ·) <$> parse_ldjson_all loads rest
            | Option.none => .error "JSONDecodeError"

/-- Line 128: `(isinstance(t, str) and t.lower() == "product") or
(isinstance(t, list) and "Product" in t)`.  Note the list case compares
with the exact string `"Product"` (Python `==` between `"Product"` and a
non-string element is `False`). -/
def hasProductType (o : List (String × PyVal)) : Bool :=
  match dget o "@type" with
  | .str s => strLower s == "product"
  | .list ts => ts.any (fun x => match x with | .str s => s == "Product" | _ => false)
  | _ => false

/-- `pick_product_obj` (lines 125–130): first object of the list whose
`@type` matches, else `None`. -/
def pick_product_obj (objs : List (List (String × PyVal))) : Option (List (String × PyVal)) :=
  objs.find? hasProductType

/-- Python `str.split(sep)` for a one-character separator (keeps empty
pieces, `"".split("/") == [""]`). -/
def splitOnChar (sep : Char) : List Char → List (List Char)
  | [] => [[]]
  | c :: t =>
      if c = sep then [] :: splitOnChar sep t
      else
        match splitOnChar sep t with
        | h :: r => (c :: h) :: r
        | [] => [[c]]

/-- Python `str.endswith(suffix)`. -/
def pyEndsWith (s suf : String) : Bool :=
  s.toList.reverse.take suf.toList.length == suf.toList.reverse

/-- Last path segment of the availability URL: `avail_url.split("/")[-1]`. -/
def lastSegment (s : String) : String :=
  ⟨(splitOnChar '/' s.toList).getLastD []⟩

/-- `availability_to_bool` (lines 132–135) applied to the looked-up
availability value (which, being JSON, can have any shape; `.split` on a
non-string raises `AttributeError`). -/
def availability_to_bool (avail : PyVal) : Except String (Option Bool) :=
  if truthy avail = false then .ok Option.none
  else
    match avail with
    | .str s => .ok (some (strLower (lastSegment s) == "instock"))
    | _ => .error "AttributeError: split"

/-! ## Product mapper (lines 140–225, the pure mapping part)

`build_product_from_url` fetches the page and extracts `prod` (the selected
JSON-LD object, `{}` when none), `page_title`, `page_desc` and `pid_meta`;
the mapping step below takes those as inputs and builds the
`Product(...).to_dict()` row, a dict with exactly the `WOO_HEADERS` keys in
order. -/

/-- Line 159: `prod.get("name") or page_title`. -/
def nameVal (prod : List (String × PyVal)) (page_title : String) : PyVal :=
  pyOr (dget prod "name") (.str page_title)

/-- Line 160: `prod.get("sku") or ""`. -/
def skuVal (prod : List (String × PyVal)) : PyVal :=
  pyOr (dget prod "sku") (.str "")

/-- Line 161: `(prod.get("description") or page_desc)`. -/
def descBase (prod : List (String × PyVal)) (page_desc : String) : PyVal :=
  pyOr (dget prod "description") (.str page_desc)

/-- `.strip()` on a Python value: only strings have it. -/
def pyStripVal (v : PyVal) : Except String String :=
  match v with
  | .str s => .ok (pyStripStr s)
  | _ => .error "AttributeError: strip"

/-- Line 161: `(... or ...).strip() if (... or ...) else ""`. -/
def descVal (prod : List (String × PyVal)) (page_desc : String) : Except String String :=
  if truthy (descBase prod page_desc) then pyStripVal (descBase prod page_desc) else .ok ""

/-- Lines 163–169: the image URL (dict → its `url` field or `""`,
string → itself, otherwise `""`). -/
def imageVal (prod : List (String × PyVal)) : PyVal :=
  match dget prod "image" with
  | .dict d => pyOr (dget d "url") (.str "")
  | .str s => .str s
  | _ => .str ""

/-- Line 171: `prod.get("offers", {}) if isinstance(prod.get("offers"), dict) else {}`. -/
def offersOf (prod : List (String × PyVal)) : List (String × PyVal) :=
  match dget prod "offers" with
  | .dict o => o
  | _ => []

/-- Line 208: `str(sale_price) if sale_price is not None else ""` with
`sale_price = offers.get("price")` (line 172). -/
def salePriceVal (offers : List (String × PyVal)) : String :=
  match dget offers "price" with
  | .none => ""
  | v => pyStr v

/-- Line 178: `offers.get("priceSpecification", {}) if isinstance(...) else {}`. -/
def priceSpecOf (offers : List (String × PyVal)) : List (String × PyVal) :=
  match dget offers "priceSpecification" with
  | .dict d => d
  | _ => []

/-- Lines 177–180: `reg_price = str(price_spec.get("price") or "") if
price_spec.get("priceType", "").endswith("StrikethroughPrice") else ""`.
`.endswith` on a non-string `priceType` raises `AttributeError`. -/
def regPriceVal (offers : List (String × PyVal)) : Except String String :=
  let price_spec := priceSpecOf offers
  match pyDictGet price_spec "priceType" (.str "") with
  | .str pt =>
      .ok (if pyEndsWith pt "StrikethroughPrice"
           then pyStr (pyOr (dget price_spec "price") (.str ""))
           else "")
  | _ => .error "AttributeError: endswith"

/-- Line 197: `"1" if in_stock else ("0" if in_stock is not None else "")`. -/
def encodeInStock (in_stock : Option Bool) : String :=
  match in_stock with
  | some true => "1"
  | some false => "0"
  | Option.none => ""

/-- Lines 174–175 and 197: availability looked up with default `""`, fed to
`availability_to_bool`, encoded tri-state. -/
def inStockVal (offers : List (String × PyVal)) : Except String String :=
  (availability_to_bool (pyDictGet offers "availability" (.str ""))).map encodeInStock

/-- The mapping step of `build_product_from_url` (lines 156–225):
from the selected JSON-LD object `prod` (`{}` when none was picked) and the
page-level fallbacks, build the `to_dict()` row — the 39 `WOO_HEADERS`
fields in order.  Errors are the `AttributeError`s the Python code can
raise on wrong-typed nested values. -/
def build_product_fields (prod : List (String × PyVal))
    (page_title page_desc pid_meta : String) :
    Except String (List (String × PyVal)) :=
  let offers := offersOf prod
  match descVal prod page_desc with
  | .error e => .error e
  | .ok desc =>
  match inStockVal offers with
  | .error e => .error e
  | .ok instock =>
  match regPriceVal offers with
  | .error e => .error e
  | .ok reg =>
  .ok
    [("ID", .str pid_meta),
     ("Type", .str "simple"),
     ("SKU", skuVal prod),
     ("Name", nameVal prod page_title),
     ("Published", .str "1"),
     ("Is featured?", .str "0"),
     ("Visibility in catalog", .str "visible"),
     ("Short description", .str ""),
     ("Description", .str desc),
     ("Date sale price starts", .str ""),
     ("Date sale price ends", pyDictGet offers "priceValidUntil" (.str "")),
     ("Tax status", .str "taxable"),
     ("Tax class", .str ""),
     ("In stock?", .str instock),
     ("Stock", .str ""),
     ("Low stock amount", .str ""),
     ("Backorders allowed?", .str "no"),
     ("Sold individually?", .str "no"),
     ("Weight(kg)", .str ""),
     ("Length(cm)", .str ""),
     ("Width(cm)", .str ""),
     ("Height(cm)", .str ""),
     ("Allow customer reviews?", .str "1"),
     ("Purchase note", .str ""),
     ("Sale price", .str (salePriceVal offers)),
     ("Regular price", .str reg),
     ("Categories", .str ""),
     ("Tags", .str ""),
     ("Shipping class", .str ""),
     ("Images", imageVal prod),
     ("Download limit", .str ""),
     ("Download expiry days", .str ""),
     ("Parent", .str ""),
     ("Grouped products", .str ""),
     ("Upsells", .str ""),
     ("Cross-sells", .str ""),
     ("External URL", .str ""),
     ("Button text", .str ""),
     ("Position", .str "0")]

/-! ## URL splitting (`urllib.parse.urlsplit` / `urlunsplit`, used at
lines 141–142 and 263–269)

Modelled on CPython's `urlsplit` (3.10+): tab/CR/LF characters are removed,
then the scheme (require a leading ASCII letter and scheme characters up to
the first `:`), then the netloc after a leading `//` (up to the first
`/?#`, with the unmatched-bracket `ValueError`), then the fragment after
the first `#`, then the query after the first `?`.  Host validation beyond
the bracket check (`_checknetloc`/`_check_bracketed_host`, which reject
some exotic hosts) is not modelled.  URLs are `List Char`. -/

/-- Characters kept by the `_UNSAFE_URL_BYTES_TO_REMOVE` removal
(everything but `'\t'` (9), `'\r'` (13), `'\n'` (10); character tests in
this component compare code points, which eases the proofs). -/
def keepChar (c : Char) : Bool := !(c.toNat == 9 || c.toNat == 13 || c.toNat == 10)

/-- Removal of `"\t"`, `"\r"`, `"\n"` from the URL. -/
def removeUnsafe (s : List Char) : List Char := s.filter keepChar

/-- ASCII letter (Python's `c.isascii() and c.isalpha()`). -/
def isAsciiAlpha (c : Char) : Bool :=
  (65 ≤ c.toNat && c.toNat ≤ 90) || (97 ≤ c.toNat && c.toNat ≤ 122)

/-- ASCII digit. -/
def isAsciiDigit (c : Char) : Bool := 48 ≤ c.toNat && c.toNat ≤ 57

/-- `scheme_chars`: letters, digits and `'+'` (43), `'-'` (45), `'.'` (46). -/
def isSchemeChar (c : Char) : Bool :=
  isAsciiAlpha c || isAsciiDigit c || c.toNat == 43 || c.toNat == 45 || c.toNat == 46

/-- Not `':'` (58). -/
def notColon (c : Char) : Bool := c.toNat != 58

/-- Not one of `'/'` (47), `'?'` (63), `'#'` (35). -/
def notNetDelim (c : Char) : Bool := !(c.toNat == 47 || c.toNat == 63 || c.toNat == 35)

/-- Not `'#'` (35). -/
def notHash (c : Char) : Bool := c.toNat != 35

/-- Not `'?'` (63). -/
def notQuest (c : Char) : Bool := c.toNat != 63

/-- The scheme test: `i = url.find(':')` is positive (the prefix before the
first colon is non-empty and proper), the first character is an ASCII
letter, and every character before the colon is a scheme character. -/
def schemeCond (s : List Char) : Bool :=
  (s.takeWhile notColon).length < s.length && !(s.takeWhile notColon).isEmpty &&
    isAsciiAlpha ((s.takeWhile notColon).headD ' ') &&
    (s.takeWhile notColon).all isSchemeChar

/-- Scheme extraction: when the scheme test passes, the scheme is the
prefix before the first colon, lower-cased, and the rest follows the
colon; otherwise no scheme. -/
def splitScheme (s : List Char) : List Char × List Char :=
  if schemeCond s
  then ((s.takeWhile notColon).map lowerChar, s.drop ((s.takeWhile notColon).length + 1))
  else ([], s)

/-- Netloc extraction (`_splitnetloc` after the `url[:2] == '//'` test,
plus the unmatched-bracket `ValueError`). -/
def splitNetloc (s : List Char) : Except String (List Char × List Char) :=
  if s.take 2 = ['/', '/'] then
    if (((s.drop 2).takeWhile notNetDelim).contains '[')
        != (((s.drop 2).takeWhile notNetDelim).contains ']')
    then .error "Invalid IPv6 URL"
    else .ok ((s.drop 2).takeWhile notNetDelim, (s.drop 2).dropWhile notNetDelim)
  else .ok ([], s)

/-- `url.split('#', 1)` when `'#' in url`, else no fragment. -/
def splitFragment (s : List Char) : List Char × List Char :=
  (s.takeWhile notHash, (s.dropWhile notHash).drop 1)

/-- `url.split('?', 1)` when `'?' in url`, else no query. -/
def splitQuery (s : List Char) : List Char × List Char :=
  (s.takeWhile notQuest, (s.dropWhile notQuest).drop 1)

structure SplitResult where
  scheme : List Char
  netloc : List Char
  path : List Char
  query : List Char
  fragment : List Char
deriving DecidableEq, Repr

def urlsplit (s : List Char) : Except String SplitResult :=
  let u := removeUnsafe s
  let sc := (splitScheme u).1
  let r1 := (splitScheme u).2
  match splitNetloc r1 with
  | .error e => .error e
  | .ok (nl, r2) =>
      let r3 := (splitFragment r2).1
      let frag := (splitFragment r2).2
      let p := (splitQuery r3).1
      let q := (splitQuery r3).2
      .ok ⟨sc, nl, p, q, frag⟩

/-- CPython `urlunsplit`. -/
def urlunsplit (r : SplitResult) : List Char :=
  let url0 := r.path
  let url1 :=
    if r.netloc ≠ [] ∨ (url0 ≠ [] ∧ url0.take 2 = ['/', '/']) then
      ['/', '/'] ++ r.netloc ++
        (if url0 ≠ [] ∧ url0.head? ≠ some '/' then '/' :: url0 else url0)
    else url0
  let url2 := if r.scheme ≠ [] then r.scheme ++ ':' :: url1 else url1
  let url3 := if r.query ≠ [] then url2 ++ '?' :: r.query else url2
  if r.fragment ≠ [] then url3 ++ '#' :: r.fragment else url3

/-- Lines 141–142 / 265–266: split the URL and reassemble it with query and
fragment dropped. -/
def normalizeUrl (s : List Char) : Except String (List Char) :=
  (urlsplit s).map (fun r => urlunsplit ⟨r.scheme, r.netloc, r.path, [], []⟩)

/-! ## Discovery-time dedup (lines 263–269) -/

/-- The dedup loop of `scrape_category_urls`: for each harvested URL,
normalize it and append it to `cleaned` unless already seen (`seen` always
holds exactly the elements of `cleaned`, so membership is tested in the
accumulator). -/
def dedup_go : List (List Char) → List (List Char) → Except String (List (List Char))
  | [], acc => .ok acc
  | u :: rest, acc =>
      match normalizeUrl u with
      | .error e => .error e
      | .ok nq => if nq ∈ acc then dedup_go rest acc else dedup_go rest (acc ++ [nq])

/-- Lines 263–269: dedup of the discovered URLs, first occurrence kept,
insertion order preserved. -/
def scrape_dedup (urls : List (List Char)) : Except String (List (List Char)) :=
  dedup_go urls []

/-- `nub l`: the distinct values of `l` ordered by first occurrence.
Written from the claim: "yields exactly the distinct canonical forms,
ordered by the first occurrence of each canonical form". -/
def nub {α : Type _} [DecidableEq α] : List α → List α
  | [] => []
  | x :: t => x :: (nub t).filter (· ≠ x)

/-! ## Concurrency helpers (lines 277–314) -/

/-- `fetch_all_products` (lines 277–293): one task per URL; a task's
outcome is abstracted as `task : String → Option row` (`none` = the task
raised at some stage, caught by the `try/except` around `f.result()` and
skipped).  `as_completed` hands back futures in an arbitrary completion
order, modelled by `completion`, a permutation of the task indices. -/
def fetch_all_products {row : Type _} (task : String → Option row)
    (urls : List String) (completion : List Nat) : List row :=
  completion.filterMap (fun i => (urls[i]?).bind task)

/-- Python `range(0, stop, step)` for `step > 0` (for `step = 0` Python
raises `ValueError`; `chunked` is only ever called with positive sizes). -/
def pyRange (stop step : Nat) : List Nat :=
  (List.range ((stop + step - 1) / step)).map (fun k => k * step)

/-- `chunked` (lines 295–297): `seq[i:i+size]` for `i in range(0, len(seq), size)`. -/
def chunked {α : Type _} (seq : List α) (size : Nat) : List (List α) :=
  (pyRange seq.length size).map (fun i => (seq.drop i).take size)

/-- `process_in_batches` (lines 299–314): chunk the URLs, fetch each batch
in order extending `all_rows`, and sleep the cooldown after every batch
whose (1-based) index is `< len(batches)`.  The second component counts the
cooldown sleeps. -/
def process_in_batches {α row : Type _} (fetchBatch : List α → List row)
    (urls : List α) (per_batch_limit : Nat) : List row × Nat :=
  let batches := chunked urls per_batch_limit
  batches.enum.foldl
    (fun acc ib =>
      (acc.1 ++ fetchBatch ib.2, if ib.1 + 1 < batches.length then acc.2 + 1 else acc.2))
    ([], 0)

/-! ## Claims about the mapper's price and stock fields (C10, C5, C4) -/

/-- C10: the Sale-price field is the string coercion of the offer's price
when that is present and non-null, and empty when the price is absent or
null (never the word `"None"`). -/
theorem C10_sale_price (offers : List (String × PyVal)) :
    (dlookup offers "price" = Option.none → salePriceVal offers = "")
    ∧ (dlookup offers "price" = some PyVal.none → salePriceVal offers = "")
    ∧ (∀ v, dlookup offers "price" = some v → v ≠ PyVal.none →
        salePriceVal offers = pyStr v) := by
  refine ⟨fun h => ?_, fun h => ?_, fun v h hv => ?_⟩
  · simp [salePriceVal, dget, pyDictGet, h]
  · simp [salePriceVal, dget, pyDictGet, h]
  · cases v <;> simp_all [salePriceVal, dget, pyDictGet]

/-- Witness for C10 at concrete offers. -/
theorem C10_sale_price_witness :
    salePriceVal [("price", PyVal.str "199000")] = "199000"
    ∧ salePriceVal [("price", PyVal.none)] = ""
    ∧ salePriceVal [] = "" := by
  refine ⟨?_, (C10_sale_price _).2.1 rfl, (C10_sale_price _).1 rfl⟩
  exact (C10_sale_price _).2.2 (PyVal.str "199000") rfl (fun h => PyVal.noConfusion h)

/-- C5: the Regular-price field equals the string coercion of the
price-specification's price (with falsy prices coerced from `""`) exactly
when the price-type tag ends with `"StrikethroughPrice"`; with any other
string price-type tag it is empty, even when a price value is present. -/
theorem C5_regular_price (offers : List (String × PyVal)) (pt : String)
    (h : pyDictGet (priceSpecOf offers) "priceType" (.str "") = .str pt) :
    (pyEndsWith pt "StrikethroughPrice" = true →
      regPriceVal offers =
        .ok (pyStr (pyOr (dget (priceSpecOf offers) "price") (.str ""))))
    ∧ (pyEndsWith pt "StrikethroughPrice" = false → regPriceVal offers = .ok "") := by
  refine ⟨fun he => ?_, fun he => ?_⟩ <;> simp [regPriceVal, h, he]

/-- Witness for C5: a strikethrough price specification populates
Regular-price, a plain one leaves it empty despite a present price. -/
theorem C5_regular_price_witness :
    regPriceVal [("priceSpecification",
        PyVal.dict [("priceType", PyVal.str "x/StrikethroughPrice"),
                    ("price", PyVal.str "250000")])] = .ok "250000"
    ∧ regPriceVal [("priceSpecification",
        PyVal.dict [("priceType", PyVal.str "ListPrice"),
                    ("price", PyVal.str "250000")])] = .ok ""
    ∧ regPriceVal [] = .ok "" := by
  refine ⟨?_, ?_, ?_⟩
  · exact ((C5_regular_price [("priceSpecification",
      PyVal.dict [("priceType", PyVal.str "x/StrikethroughPrice"),
                  ("price", PyVal.str "250000")])] "x/StrikethroughPrice" rfl).1
      (by decide)).trans rfl
  · exact (C5_regular_price [("priceSpecification",
      PyVal.dict [("priceType", PyVal.str "ListPrice"),
                  ("price", PyVal.str "250000")])] "ListPrice" rfl).2 (by decide)
  · exact (C5_regular_price [] "" rfl).2 (by decide)

/-- C4: the In-stock field is tri-state.  An availability string whose
last `/`-segment lower-cases to `"instock"` gives `"1"`; a non-empty
availability string with any other last segment gives `"0"`; an absent
availability gives `""` (not `"0"`). -/
theorem C4_in_stock (offers : List (String × PyVal)) :
    (∀ s, dlookup offers "availability" = some (.str s) →
      (strLower (lastSegment s) = "instock" → inStockVal offers = .ok "1")
      ∧ (s ≠ "" → strLower (lastSegment s) ≠ "instock" → inStockVal offers = .ok "0"))
    ∧ (dlookup offers "availability" = Option.none → inStockVal offers = .ok "") := by
  constructor
  · intro s h
    constructor
    · intro hseg
      rcases eq_or_ne s "" with rfl | hs
      · simp [strLower, lastSegment, splitOnChar] at hseg
      · simp [inStockVal, availability_to_bool, pyDictGet, h, truthy, hs,
          encodeInStock, hseg, Except.map]
    · intro hs hseg
      have hb : (strLower (lastSegment s) == "instock") = false :=
        beq_eq_false_iff_ne.mpr hseg
      simp [inStockVal, availability_to_bool, pyDictGet, h, truthy, hs,
        encodeInStock, hb, Except.map]
  · intro h
    simp [inStockVal, availability_to_bool, pyDictGet, h, truthy, encodeInStock,
      Except.map]

/-- Witness for C4 at the three concrete availability shapes. -/
theorem C4_in_stock_witness :
    inStockVal [("availability", PyVal.str "http://schema.org/InStock")] = .ok "1"
    ∧ inStockVal [("availability", PyVal.str "http://schema.org/OutOfStock")] = .ok "0"
    ∧ inStockVal [] = .ok "" := by
  refine ⟨((C4_in_stock [("availability",
      PyVal.str "http://schema.org/InStock")]).1 "http://schema.org/InStock" rfl).1
      (by decide),
    ((C4_in_stock [("availability",
      PyVal.str "http://schema.org/OutOfStock")]).1 "http://schema.org/OutOfStock" rfl).2
      (by decide) (by decide),
    (C4_in_stock []).2 rfl⟩

/-! ## Claim C1: mapper totality -/

/-- C1 counterexample: a structured object whose `description` holds a
wrong-typed (truthy non-string) value makes the mapping step raise
(`(5).strip()` is an `AttributeError`), so the mapper is **not** total on
objects with wrong-typed fields and returns no record here. -/
theorem C1_mapper_counterexample :
    build_product_fields [("description", PyVal.int 5)] "title" "desc" "pid"
      = .error "AttributeError: strip" := by rfl

/-- C1 (amended): the mapping never raises and yields a record with all 39
schema fields holding strings, **provided** the string-consumed slots of
the structured object are strings whenever used: `description` (and the
offer's `availability`) whenever truthy, the price-specification's
`priceType` whenever present, and the derived name / SKU / priceValidUntil
/ image values.  (The unamended claim fails: see the counterexample.) -/
theorem C1_mapper_totality_amended (prod : List (String × PyVal))
    (page_title page_desc pid_meta : String)
    (hdesc : truthy (descBase prod page_desc) = true →
      ∃ s, descBase prod page_desc = .str s)
    (havail : truthy (pyDictGet (offersOf prod) "availability" (.str "")) = true →
      ∃ s, pyDictGet (offersOf prod) "availability" (.str "") = .str s)
    (hpt : ∃ s, pyDictGet (priceSpecOf (offersOf prod)) "priceType" (.str "") = .str s)
    (hname : ∃ s, nameVal prod page_title = .str s)
    (hsku : ∃ s, skuVal prod = .str s)
    (hpvu : ∃ s, pyDictGet (offersOf prod) "priceValidUntil" (.str "") = .str s)
    (himg : ∃ s, imageVal prod = .str s) :
    ∃ fields, build_product_fields prod page_title page_desc pid_meta = .ok fields
      ∧ fields.map Prod.fst = WOO_HEADERS
      ∧ ∀ p ∈ fields, ∃ s, p.2 = PyVal.str s := by
  have hd : ∃ d, descVal prod page_desc = .ok d := by
    by_cases ht : truthy (descBase prod page_desc) = true
    · obtain ⟨s, hs⟩ := hdesc ht
      rw [hs] at ht
      exact ⟨pyStripStr s, by simp [descVal, ht, hs, pyStripVal]⟩
    · exact ⟨"", by simp [descVal, ht]⟩
  have hi : ∃ i, inStockVal (offersOf prod) = .ok i := by
    by_cases ht : truthy (pyDictGet (offersOf prod) "availability" (.str "")) = true
    · obtain ⟨s, hs⟩ := havail ht
      rw [hs] at ht
      refine ⟨encodeInStock (some (strLower (lastSegment s) == "instock")), ?_⟩
      simp [inStockVal, availability_to_bool, ht, hs, Except.map]
    · refine ⟨"", ?_⟩
      simp [inStockVal, availability_to_bool, eq_false_of_ne_true ht, Except.map,
        encodeInStock]
  have hr : ∃ r, regPriceVal (offersOf prod) = .ok r := by
    obtain ⟨s, hs⟩ := hpt
    have : regPriceVal (offersOf prod) =
        .ok (if pyEndsWith s "StrikethroughPrice"
             then pyStr (pyOr (dget (priceSpecOf (offersOf prod)) "price") (.str ""))
             else "") := by
      simp only [regPriceVal, hs]
    exact ⟨_, this⟩
  obtain ⟨d, hd⟩ := hd
  obtain ⟨i, hi⟩ := hi
  obtain ⟨r, hr⟩ := hr
  refine ⟨[("ID", .str pid_meta), ("Type", .str "simple"), ("SKU", skuVal prod),
      ("Name", nameVal prod page_title), ("Published", .str "1"),
      ("Is featured?", .str "0"), ("Visibility in catalog", .str "visible"),
      ("Short description", .str ""), ("Description", .str d),
      ("Date sale price starts", .str ""),
      ("Date sale price ends", pyDictGet (offersOf prod) "priceValidUntil" (.str "")),
      ("Tax status", .str "taxable"), ("Tax class", .str ""),
      ("In stock?", .str i), ("Stock", .str ""), ("Low stock amount", .str ""),
      ("Backorders allowed?", .str "no"), ("Sold individually?", .str "no"),
      ("Weight(kg)", .str ""), ("Length(cm)", .str ""), ("Width(cm)", .str ""),
      ("Height(cm)", .str ""), ("Allow customer reviews?", .str "1"),
      ("Purchase note", .str ""), ("Sale price", .str (salePriceVal (offersOf prod))),
      ("Regular price", .str r), ("Categories", .str ""), ("Tags", .str ""),
      ("Shipping class", .str ""), ("Images", imageVal prod),
      ("Download limit", .str ""), ("Download expiry days", .str ""),
      ("Parent", .str ""), ("Grouped products", .str ""), ("Upsells", .str ""),
      ("Cross-sells", .str ""), ("External URL", .str ""), ("Button text", .str ""),
      ("Position", .str "0")], ?_, ?_, ?_⟩
  · simp only [build_product_fields, hd, hi, hr]
  · rfl
  · simp only [List.forall_mem_cons, List.forall_mem_nil, and_true]
    refine ⟨⟨_, rfl⟩, ⟨_, rfl⟩, hsku, hname, ⟨_, rfl⟩, ⟨_, rfl⟩, ⟨_, rfl⟩, ⟨_, rfl⟩,
      ⟨_, rfl⟩, ⟨_, rfl⟩, hpvu, ⟨_, rfl⟩, ⟨_, rfl⟩, ⟨_, rfl⟩, ⟨_, rfl⟩, ⟨_, rfl⟩,
      ⟨_, rfl⟩, ⟨_, rfl⟩, ⟨_, rfl⟩, ⟨_, rfl⟩, ⟨_, rfl⟩, ⟨_, rfl⟩, ⟨_, rfl⟩, ⟨_, rfl⟩,
      ⟨_, rfl⟩, ⟨_, rfl⟩, ⟨_, rfl⟩, ⟨_, rfl⟩, ⟨_, rfl⟩, himg, ⟨_, rfl⟩, ⟨_, rfl⟩,
      ⟨_, rfl⟩, ⟨_, rfl⟩, ⟨_, rfl⟩, ⟨_, rfl⟩, ⟨_, rfl⟩, ⟨_, rfl⟩, ⟨_, rfl⟩,
      List.forall_mem_nil _⟩

/-- Witness for C1 (amended) at the empty mapping: every hypothesis holds
and the mapper yields a complete all-string record. -/
theorem C1_mapper_totality_witness :
    ∃ fields, build_product_fields [] "Lamp" "A lamp." "P123" = .ok fields
      ∧ fields.map Prod.fst = WOO_HEADERS
      ∧ ∀ p ∈ fields, ∃ s, p.2 = PyVal.str s :=
  C1_mapper_totality_amended [] "Lamp" "A lamp." "P123"
    (fun h => ⟨"A lamp.", rfl⟩) (fun h => by exact absurd h (by decide))
    ⟨"", rfl⟩ ⟨"Lamp", rfl⟩ ⟨"", rfl⟩ ⟨"", rfl⟩ ⟨"", rfl⟩

/-! ## Claim C3: product selection -/

/-- `find?` returns `some a` exactly when the list decomposes as a prefix
of non-matching elements followed by `a`, the first match. -/
theorem find?_eq_some_first {α : Type _} (p : α → Bool) (l : List α) (a : α) :
    l.find? p = some a ↔
      ∃ pre post, l = pre ++ a :: post ∧ p a = true ∧ ∀ x ∈ pre, p x = false := by
  induction l with
  | nil =>
      constructor
      · intro h
        exact absurd h (by simp)
      · rintro ⟨pre, post, h, -, -⟩
        exact absurd h (by simp)
  | cons b t ih =>
      cases hb : p b
      · rw [List.find?_cons_of_neg _ (by simp [hb]), ih]
        constructor
        · rintro ⟨pre, post, rfl, hp, hall⟩
          refine ⟨b :: pre, post, rfl, hp, ?_⟩
          intro x hx
          rcases List.mem_cons.mp hx with rfl | hx
          · exact hb
          · exact hall x hx
        · rintro ⟨pre, post, heq, hp, hall⟩
          rcases pre with _ | ⟨b', pre'⟩
          · simp only [List.nil_append] at heq
            injection heq with h1 h2
            rw [h1, hp] at hb
            exact absurd hb (by simp)
          · rw [List.cons_append] at heq
            injection heq with h1 h2
            exact ⟨pre', post, h2, hp, fun x hx => hall x (List.mem_cons_of_mem _ hx)⟩
      · rw [List.find?_cons_of_pos _ hb]
        constructor
        · intro h
          obtain rfl := Option.some.inj h
          exact ⟨[], t, rfl, hb, by simp⟩
        · rintro ⟨pre, post, heq, hp, hall⟩
          rcases pre with _ | ⟨b', pre'⟩
          · simp only [List.nil_append] at heq
            injection heq with h1 h2
            rw [h1]
          · rw [List.cons_append] at heq
            injection heq with h1 h2
            subst h1
            rw [hall b (List.mem_cons_self b pre')] at hb
            exact absurd hb (by simp)

/-- C3 (amended): selection scans in order and returns the first object
whose `@type` is either a string case-insensitively equal to `"product"`,
or a list containing the exact (case-sensitive) string `"Product"`; it
returns none when no object matches.  (The original claim's
"case-insensitively equals, also within a list" fails: see the
counterexample.) -/
theorem C3_selection_amended (objs : List (List (String × PyVal))) :
    (pick_product_obj objs = Option.none ↔ ∀ o ∈ objs, hasProductType o = false)
    ∧ ∀ o, pick_product_obj objs = some o ↔
        ∃ pre post, objs = pre ++ o :: post ∧ hasProductType o = true
          ∧ ∀ x ∈ pre, hasProductType x = false := by
  constructor
  · rw [pick_product_obj, List.find?_eq_none]
    simp [Bool.not_eq_true]
  · intro o
    exact find?_eq_some_first hasProductType objs o

/-- C3 counterexample: an object whose `@type` list holds the lowercase
string `"product"` is **not** selected (the code's list membership test is
case-sensitive), though the claim says the match is case-insensitive. -/
theorem C3_selection_counterexample :
    pick_product_obj [[("@type", PyVal.list [PyVal.str "product"])]] = Option.none := by
  rfl

/-- Witness for C3 (amended): the first matching object is returned, a
non-matching object before it is skipped. -/
theorem C3_selection_witness :
    pick_product_obj [[("@type", PyVal.str "BreadcrumbList")],
        [("@type", PyVal.str "Product")]]
      = some [("@type", PyVal.str "Product")] := by
  refine ((C3_selection_amended _).2 _).mpr
    ⟨[[("@type", PyVal.str "BreadcrumbList")]], [], rfl, by rfl, ?_⟩
  intro x hx
  rw [List.mem_singleton] at hx
  subst hx
  rfl

/-! ## Claim C2: per-block parse handling -/

/-- C2 (amended): each JSON-LD block is parsed independently; a failed
parse of the raw text is retried on the whitespace-stripped text and a
retry success contributes the block normally; but when **both** parses
fail, the decode error propagates and aborts extraction of the whole
document — the block is *not* skipped.  (The original claim's "the block is
skipped" fails: see the counterexample.) -/
theorem C2_block_parse_amended (loads : String → Option PyVal) (raw : String)
    (rest : List String) (h0 : raw ≠ "") :
    (∀ d, loads raw = some d →
      parse_ldjson_all loads (raw :: rest)
        = (aggregate d ++ ·) <$> parse_ldjson_all loads rest)
    ∧ (loads raw = Option.none → ∀ d, loads (pyStripStr raw) = some d →
      parse_ldjson_all loads (raw :: rest)
        = (aggregate d ++ ·) <$> parse_ldjson_all loads rest)
    ∧ (loads raw = Option.none → loads (pyStripStr raw) = Option.none →
      parse_ldjson_all loads (raw :: rest) = .error "JSONDecodeError") := by
  refine ⟨fun d hd => ?_, fun h1 d hd => ?_, fun h1 h2 => ?_⟩
  · simp [parse_ldjson_all, h0, hd]
  · simp [parse_ldjson_all, h0, h1, hd]
  · simp [parse_ldjson_all, h0, h1, h2]

/-- A concrete `json.loads` fragment for the C2 instances: `"1"` parses to
the number 1 (as real `json.loads` does), everything else used here
(`"x"`, `" 1"`) is a decode error. -/
def loadsCex : String → Option PyVal :=
  fun s => if s = "1" then some (.int 1) else Option.none

/-- C2 counterexample: the first block `"x"` fails both the raw parse and
the stripped parse, and extraction of the whole document aborts — the
well-formed second block `"1"` is never reached, contradicting "a
malformed block never aborts extraction of the remaining blocks". -/
theorem C2_block_parse_counterexample :
    parse_ldjson_all loadsCex ["x", "1"] = .error "JSONDecodeError" := by rfl

/-- Witness for C2 (amended): the stripped-retry branch succeeds for the
block `" 1"` and contributes its value. -/
theorem C2_block_parse_witness :
    parse_ldjson_all loadsCex [" 1"] = .ok [PyVal.int 1] := by
  have h := (C2_block_parse_amended loadsCex " 1" [] (by decide)).2.1 rfl
    (PyVal.int 1) rfl
  exact h.trans rfl

/-! ## Claim C6: batch partitioning and cooldown -/

theorem pyRange_zero (step : Nat) : pyRange 0 step = [] := by
  unfold pyRange
  have h : (0 + step - 1) / step = 0 := by
    rcases Nat.eq_zero_or_pos step with h | h
    · subst h; rfl
    · exact Nat.div_eq_of_lt (by omega)
  rw [h]
  rfl

theorem chunked_nil {α : Type _} (size : Nat) : chunked ([] : List α) size = [] := by
  simp [chunked, pyRange_zero]

/-- Unfolding step of `chunked`: first `size` elements, then the chunks of
the remainder. -/
theorem chunked_cons {α : Type _} (seq : List α) (size : Nat) (hs : 0 < size)
    (hn : seq ≠ []) :
    chunked seq size = seq.take size :: chunked (seq.drop size) size := by
  have hlen : 0 < seq.length := List.length_pos.mpr hn
  unfold chunked pyRange
  have hc : (seq.length + size - 1) / size = (seq.length - 1) / size + 1 := by
    have h1 : seq.length + size - 1 = (seq.length - 1) + size := by omega
    rw [h1, Nat.add_div_right _ hs]
  rw [hc, List.range_succ_eq_map]
  simp only [List.map_cons, List.map_map]
  congr 1
  · simp
  · have hlen2 : (seq.drop size).length = seq.length - size := List.length_drop size seq
    rw [hlen2]
    have hc2 : (seq.length - size + size - 1) / size = (seq.length - 1) / size := by
      rcases le_or_lt size seq.length with h | h
      · congr 1
        omega
      · have h1 : seq.length - size = 0 := by omega
        rw [h1]
        have h2 : (0 + size - 1) / size = 0 := Nat.div_eq_of_lt (by omega)
        have h3 : (seq.length - 1) / size = 0 := Nat.div_eq_of_lt (by omega)
        rw [h2, h3]
    rw [hc2]
    apply List.map_congr_left
    intro k _
    simp only [Function.comp]
    rw [List.drop_drop]
    congr 2
    rw [Nat.succ_mul, Nat.add_comm]

/-- The chunks concatenate back to the original list (consecutive,
order-preserving partition). -/
theorem chunked_flatten {α : Type _} (seq : List α) (size : Nat) (hs : 0 < size) :
    (chunked seq size).flatten = seq := by
  rcases eq_or_ne seq [] with rfl | hn
  · simp [chunked_nil]
  · rw [chunked_cons seq size hs hn, List.flatten_cons,
      chunked_flatten (seq.drop size) size hs, List.take_append_drop]
termination_by seq.length
decreasing_by
  have h1 : 0 < seq.length := List.length_pos.mpr hn
  simp only [List.length_drop]
  omega

theorem chunked_le {α : Type _} (seq : List α) (size : Nat) :
    ∀ c ∈ chunked seq size, c.length ≤ size := by
  intro c hc
  simp only [chunked, List.mem_map] at hc
  obtain ⟨i, -, rfl⟩ := hc
  simp [List.length_take]

/-- Every chunk except possibly the last has exactly `size` elements. -/
theorem chunked_full {α : Type _} (seq : List α) (size : Nat) (hs : 0 < size) :
    ∀ i, i + 1 < (chunked seq size).length →
      ((chunked seq size).getD i []).length = size := by
  intro i hi
  have hlen : (chunked seq size).length = (seq.length + size - 1) / size := by
    simp [chunked, pyRange]
  rw [hlen] at hi
  have hi2 : i + 2 ≤ (seq.length + size - 1) / size := by omega
  have h2 : (i + 2) * size ≤ seq.length + size - 1 :=
    (Nat.le_div_iff_mul_le hs).mp hi2
  have hd : (i + 2) * size = i * size + 2 * size := by ring
  have h3 : i * size + size ≤ seq.length := by omega
  have hgd : (chunked seq size).getD i [] = (seq.drop (i * size)).take size := by
    rw [List.getD_eq_getElem?_getD]
    have hi3 : i < (seq.length + size - 1) / size := by omega
    simp only [chunked, pyRange, List.map_map, List.getElem?_map,
      List.getElem?_range hi3]
    rfl
  rw [hgd, List.length_take, List.length_drop]
  omega

/-- The batch loop of `process_in_batches` over an `enumFrom` suffix:
rows accumulate in batch order, and the cooldown counter advances for
every batch except the last one. -/
theorem pib_enumFrom {α row : Type _} (fetchBatch : List α → List row) (n : Nat) :
    ∀ (bs : List (List α)) (k : Nat) (r : List row) (s : Nat), k + bs.length = n →
      (List.enumFrom k bs).foldl
          (fun acc ib =>
            (acc.1 ++ fetchBatch ib.2, if ib.1 + 1 < n then acc.2 + 1 else acc.2))
          (r, s)
        = (r ++ (bs.map fetchBatch).flatten, s + (bs.length - 1)) := by
  intro bs
  induction bs with
  | nil => intro k r s h; simp
  | cons b t ih =>
      intro k r s h
      rw [List.enumFrom_cons, List.foldl_cons]
      rcases eq_or_ne t [] with rfl | htn
      · have hn : n = k + 1 := by simpa using h.symm
        rw [if_neg (by omega)]
        simp
      · have htl : 0 < t.length := List.length_pos.mpr htn
        have hlt : k + 1 < n := by
          simp only [List.length_cons] at h
          omega
        rw [if_pos hlt,
          ih (k + 1) (r ++ fetchBatch b) (s + 1) (by simp only [List.length_cons] at h; omega)]
        simp only [List.map_cons, List.flatten_cons, List.append_assoc, Prod.mk.injEq,
          List.length_cons]
        exact ⟨trivial, by omega⟩

set_option maxRecDepth 10000 in
/-- C6: for a positive batch size, the scheduler partitions the URL list
into consecutive chunks of at most `size` (they concatenate back to the
input, and every chunk but the last has exactly `size` elements); 500 URLs
at size 240 give chunk sizes `[240, 240, 20]`; the batch rows are exactly
the per-batch results in order; the cooldown sleep count is one less than
the number of batches (so it runs after every batch except the last, and
twice for three batches); and an empty URL list gives zero batches, an
empty result and no cooldown sleeps. -/
theorem C6_batch_partitioning {α row : Type _} (fetchBatch : List α → List row)
    (urls : List α) (size : Nat) (hs : 0 < size) :
    (chunked urls size).flatten = urls
    ∧ (∀ c ∈ chunked urls size, c.length ≤ size)
    ∧ (∀ i, i + 1 < (chunked urls size).length →
        ((chunked urls size).getD i []).length = size)
    ∧ (chunked (List.range 500) 240).map List.length = [240, 240, 20]
    ∧ process_in_batches fetchBatch ([] : List α) size = ([], 0)
    ∧ (process_in_batches fetchBatch urls size).1
        = ((chunked urls size).map fetchBatch).flatten
    ∧ (process_in_batches fetchBatch urls size).2
        = (chunked urls size).length - 1 := by
  have h := pib_enumFrom fetchBatch (chunked urls size).length (chunked urls size)
    0 [] 0 (by omega)
  have he : (chunked urls size).enum = List.enumFrom 0 (chunked urls size) := rfl
  refine ⟨chunked_flatten urls size hs, chunked_le urls size, chunked_full urls size hs,
    by decide, ?_, ?_, ?_⟩
  · rw [process_in_batches, chunked_nil]
    rfl
  · rw [process_in_batches, he, h]
    simp
  · rw [process_in_batches, he, h]
    simp

set_option maxRecDepth 10000 in
/-- Witness for C6 at the claim's concrete numbers: 500 URLs, batch size
240, chunk sizes [240, 240, 20], exactly two cooldown sleeps; and the
empty list gives no batches, no rows and no sleeps. -/
theorem C6_batch_partitioning_witness :
    (chunked (List.range 500) 240).map List.length = [240, 240, 20]
    ∧ (process_in_batches (fun b : List Nat => b) (List.range 500) 240).2 = 2
    ∧ process_in_batches (fun b : List Nat => b) ([] : List Nat) 240 = ([], 0) := by
  have h := C6_batch_partitioning (fun b : List Nat => b) (List.range 500) 240
    (by decide)
  have h3 : (chunked (List.range 500) 240).length = 3 := by
    have := congrArg List.length h.2.2.2.1
    simpa using this
  exact ⟨h.2.2.2.1, by rw [h.2.2.2.2.2.2, h3], h.2.2.2.2.1⟩

/-! ## Claim C7: per-task fault isolation in a batch -/

/-- Collecting the per-index task outcomes over all indices in order is the
same as collecting the per-URL successes. -/
theorem range_filterMap_tasks {row : Type _} (task : String → Option row)
    (urls : List String) :
    (List.range urls.length).filterMap (fun i => (urls[i]?).bind task)
      = urls.filterMap task := by
  induction urls with
  | nil => rfl
  | cons u t ih =>
      rw [List.length_cons, List.range_succ_eq_map, List.filterMap_cons,
        List.filterMap_map]
      have hcomp : ((fun i => ((u :: t)[i]?).bind task) ∘ Nat.succ)
          = fun i => (t[i]?).bind task := by
        funext i
        simp
      rw [hcomp, ih]
      cases h : task u <;> simp [List.filterMap_cons, h]

/-- C7: whatever order the futures complete in, the batch result is a
permutation of exactly the successful tasks' records — a failing task is
excluded and does not affect any other URL's record. -/
theorem C7_fault_isolation {row : Type _} (task : String → Option row)
    (urls : List String) (completion : List Nat)
    (h : completion.Perm (List.range urls.length)) :
    (fetch_all_products task urls completion).Perm (urls.filterMap task) := by
  have hp := h.filterMap (fun i => (urls[i]?).bind task)
  rw [range_filterMap_tasks] at hp
  exact hp

/-- Witness for C7: one always-failing URL (`"b"`) in a batch of three,
futures completing out of submission order; the other two URLs' records
are all present. -/
theorem C7_fault_isolation_witness :
    (fetch_all_products (fun u => if u = "b" then Option.none else some u)
        ["a", "b", "c"] [2, 0, 1]).Perm
      (["a", "b", "c"].filterMap (fun u => if u = "b" then Option.none else some u)) :=
  C7_fault_isolation (fun u => if u = "b" then Option.none else some u)
    ["a", "b", "c"] [2, 0, 1] (by decide)

/-! ## List lemmas for the URL proofs -/

theorem takeWhile_append_all {α : Type _} (p : α → Bool) (xs ys : List α)
    (h : ∀ x ∈ xs, p x = true) :
    (xs ++ ys).takeWhile p = xs ++ ys.takeWhile p := by
  induction xs with
  | nil => rfl
  | cons a t ih =>
      simp only [List.cons_append, List.takeWhile_cons, h a (List.mem_cons_self a t),
        if_true]
      rw [ih (fun x hx => h x (List.mem_cons_of_mem a hx))]

theorem dropWhile_append_all {α : Type _} (p : α → Bool) (xs ys : List α)
    (h : ∀ x ∈ xs, p x = true) :
    (xs ++ ys).dropWhile p = ys.dropWhile p := by
  induction xs with
  | nil => rfl
  | cons a t ih =>
      simp only [List.cons_append, List.dropWhile_cons, h a (List.mem_cons_self a t),
        if_true]
      exact ih (fun x hx => h x (List.mem_cons_of_mem a hx))

theorem takeWhile_append_stop {α : Type _} (p : α → Bool) (xs ys : List α)
    (h : ¬ ∀ x ∈ xs, p x = true) :
    (xs ++ ys).takeWhile p = xs.takeWhile p := by
  induction xs with
  | nil => exact absurd (by simp) h
  | cons a t ih =>
      cases ha : p a
      · simp [List.takeWhile_cons, ha]
      · have ht : ¬ ∀ x ∈ t, p x = true := by
          intro hall
          exact h (fun x hx => by
            rcases List.mem_cons.mp hx with rfl | hx
            · exact ha
            · exact hall x hx)
        simp only [List.cons_append, List.takeWhile_cons, ha, if_true]
        rw [ih ht]

theorem dropWhile_append_stop {α : Type _} (p : α → Bool) (xs ys : List α)
    (h : ¬ ∀ x ∈ xs, p x = true) :
    (xs ++ ys).dropWhile p = xs.dropWhile p ++ ys := by
  induction xs with
  | nil => exact absurd (by simp) h
  | cons a t ih =>
      cases ha : p a
      · simp [List.dropWhile_cons, ha]
      · have ht : ¬ ∀ x ∈ t, p x = true := by
          intro hall
          exact h (fun x hx => by
            rcases List.mem_cons.mp hx with rfl | hx
            · exact ha
            · exact hall x hx)
        simp only [List.cons_append, List.dropWhile_cons, ha, if_true]
        exact ih ht

theorem takeWhile_all_eq {α : Type _} (p : α → Bool) (xs : List α)
    (h : ∀ x ∈ xs, p x = true) : xs.takeWhile p = xs :=
  List.takeWhile_eq_self_iff.mpr h

theorem dropWhile_all_eq {α : Type _} (p : α → Bool) (xs : List α)
    (h : ∀ x ∈ xs, p x = true) : xs.dropWhile p = [] := by
  induction xs with
  | nil => rfl
  | cons a t ih =>
      simp only [List.dropWhile_cons, h a (List.mem_cons_self a t), if_true]
      exact ih (fun x hx => h x (List.mem_cons_of_mem a hx))

theorem length_takeWhile_lt {α : Type _} (p : α → Bool) (xs : List α)
    (h : ¬ ∀ x ∈ xs, p x = true) : (xs.takeWhile p).length < xs.length := by
  induction xs with
  | nil => exact absurd (by simp) h
  | cons a t ih =>
      cases ha : p a
      · simp [List.takeWhile_cons, ha]
      · have ht : ¬ ∀ x ∈ t, p x = true := by
          intro hall
          exact h (fun x hx => by
            rcases List.mem_cons.mp hx with rfl | hx
            · exact ha
            · exact hall x hx)
        simp only [List.takeWhile_cons, ha, if_true, List.length_cons]
        exact Nat.succ_lt_succ (ih ht)

theorem mem_of_mem_takeWhile {α : Type _} {p : α → Bool} {xs : List α} {x : α}
    (h : x ∈ xs.takeWhile p) : x ∈ xs := by
  have := List.takeWhile_append_dropWhile p xs
  rw [← this]
  exact List.mem_append_left _ h

theorem mem_of_mem_dropWhile {α : Type _} {p : α → Bool} {xs : List α} {x : α}
    (h : x ∈ xs.dropWhile p) : x ∈ xs := by
  have := List.takeWhile_append_dropWhile p xs
  rw [← this]
  exact List.mem_append_right _ h

theorem dropWhile_head_false {α : Type _} (p : α → Bool) (xs : List α) (y : α)
    (ys : List α) (h : xs.dropWhile p = y :: ys) : p y = false := by
  induction xs with
  | nil => exact absurd h (by simp)
  | cons a t ih =>
      rw [List.dropWhile_cons] at h
      by_cases ha : p a = true
      · rw [if_pos ha] at h
        exact ih h
      · rw [if_neg ha] at h
        obtain rfl := (List.cons.inj h).1
        exact Bool.not_eq_true _ ▸ eq_false_of_ne_true ha

/-! ## Character-level lemmas -/

/-- `lowerChar` either shifts an uppercase letter down by 32 or leaves the
character unchanged. -/
theorem lowerChar_spec (c : Char) :
    ((65 ≤ c.toNat ∧ c.toNat ≤ 90) ∧ (lowerChar c).toNat = c.toNat + 32)
    ∨ (¬(65 ≤ c.toNat ∧ c.toNat ≤ 90) ∧ lowerChar c = c) := by
  unfold lowerChar
  split
  · next h => exact Or.inl ⟨h, rfl⟩
  · next h => exact Or.inr ⟨h, rfl⟩

theorem keepChar_lowerChar (c : Char) (h : keepChar c = true) :
    keepChar (lowerChar c) = true := by
  rcases lowerChar_spec c with ⟨h1, h2⟩ | ⟨h1, h2⟩
  · simp only [keepChar, Bool.not_eq_true', Bool.or_eq_false_iff,
      beq_eq_false_iff_ne, ne_eq] at h ⊢
    rw [h2]
    omega
  · rw [h2]; exact h

theorem isSchemeChar_lowerChar (c : Char) (h : isSchemeChar c = true) :
    isSchemeChar (lowerChar c) = true := by
  rcases lowerChar_spec c with ⟨h1, h2⟩ | ⟨h1, h2⟩
  · simp only [isSchemeChar, isAsciiAlpha, isAsciiDigit, h2]
    simp only [Bool.or_eq_true, Bool.and_eq_true, decide_eq_true_eq, beq_iff_eq]
    omega
  · rw [h2]; exact h

theorem isSchemeChar_notColon (c : Char) (h : isSchemeChar c = true) :
    notColon c = true := by
  simp only [isSchemeChar, isAsciiAlpha, isAsciiDigit, Bool.or_eq_true,
    Bool.and_eq_true, decide_eq_true_eq, beq_iff_eq] at h
  simp only [notColon, bne_iff_ne, ne_eq]
  omega

theorem isAsciiAlpha_lowerChar (c : Char) (h : isAsciiAlpha c = true) :
    isAsciiAlpha (lowerChar c) = true := by
  rcases lowerChar_spec c with ⟨h1, h2⟩ | ⟨h1, h2⟩
  · simp only [isAsciiAlpha, h2]
    simp only [Bool.or_eq_true, Bool.and_eq_true, decide_eq_true_eq]
    omega
  · rw [h2]; exact h

theorem lowerChar_idem (c : Char) : lowerChar (lowerChar c) = lowerChar c := by
  rcases lowerChar_spec c with ⟨h1, h2⟩ | ⟨h1, h2⟩
  · rcases lowerChar_spec (lowerChar c) with ⟨h3, h4⟩ | ⟨h3, h4⟩
    · exact absurd h3 (by omega)
    · exact h4
  · rw [h2]
    rcases lowerChar_spec c with ⟨h3, h4⟩ | ⟨h3, h4⟩
    · exact absurd h3 h1
    · exact h4

/-! ## Split-function lemmas -/

theorem char_eq_of_toNat {a b : Char} (h : a.toNat = b.toNat) : a = b :=
  Char.ext (UInt32.ext h)

/-- A character that is a net delimiter but neither `'#'` nor `'?'` is `'/'`. -/
theorem netDelim_head_slash (d : Char) (h1 : notNetDelim d = false)
    (h2 : notHash d = true) (h3 : notQuest d = true) : d = '/' := by
  simp only [notNetDelim, Bool.not_eq_false', Bool.or_eq_true, beq_iff_eq] at h1
  simp only [notHash, bne_iff_ne, ne_eq] at h2
  simp only [notQuest, bne_iff_ne, ne_eq] at h3
  have hd : d.toNat = 47 := by omega
  exact char_eq_of_toNat (by rw [hd]; rfl)

theorem takeWhile_head {α : Type _} (p : α → Bool) (l : List α) (x : α)
    (xs : List α) (h : l.takeWhile p = x :: xs) : ∃ t, l = x :: t := by
  cases l with
  | nil => exact absurd h (by simp)
  | cons a t =>
      rw [List.takeWhile_cons] at h
      by_cases ha : p a = true
      · rw [if_pos ha] at h
        exact ⟨t, by rw [(List.cons.inj h).1]⟩
      · rw [if_neg ha] at h
        exact absurd h (by simp)

theorem splitScheme_of_cond_false (s : List Char) (h : schemeCond s = false) :
    splitScheme s = ([], s) := by
  rw [splitScheme, if_neg]
  simp [h]

theorem schemeCond_nil : schemeCond [] = false := rfl

theorem schemeCond_cons_slash (t : List Char) : schemeCond ('/' :: t) = false := by
  simp only [schemeCond, List.takeWhile_cons,
    show notColon '/' = true from by decide, if_true, List.headD_cons,
    show isAsciiAlpha '/' = false from by decide]
  simp

/-- If the whole string fails the scheme test, so does any prefix of it. -/
theorem schemeCond_append_false (p rest : List Char)
    (h : schemeCond (p ++ rest) = false) : schemeCond p = false := by
  by_contra hp0
  rw [Bool.not_eq_false] at hp0
  simp only [schemeCond, Bool.and_eq_true, decide_eq_true_eq] at hp0
  obtain ⟨⟨⟨ha, hb⟩, hc⟩, hd⟩ := hp0
  have hstop : ¬ ∀ x ∈ p, notColon x = true := by
    intro hall
    rw [takeWhile_all_eq _ _ hall] at ha
    exact lt_irrefl _ ha
  have hpre : (p ++ rest).takeWhile notColon = p.takeWhile notColon :=
    takeWhile_append_stop _ _ _ hstop
  have hcond : schemeCond (p ++ rest) = true := by
    simp only [schemeCond, hpre, Bool.and_eq_true, decide_eq_true_eq]
    refine ⟨⟨⟨?_, hb⟩, hc⟩, hd⟩
    calc (p.takeWhile notColon).length < p.length := ha
      _ ≤ (p ++ rest).length := by simp
  rw [h] at hcond
  exact absurd hcond (by simp)

theorem splitScheme_of_cond_true (s : List Char) (h : schemeCond s = true) :
    splitScheme s = ((s.takeWhile notColon).map lowerChar,
      s.drop ((s.takeWhile notColon).length + 1)) := by
  rw [splitScheme, if_pos h]

theorem schemeCond_elim (s : List Char) (h : schemeCond s = true) :
    (s.takeWhile notColon).length < s.length
    ∧ s.takeWhile notColon ≠ []
    ∧ isAsciiAlpha ((s.takeWhile notColon).headD ' ') = true
    ∧ ∀ c ∈ s.takeWhile notColon, isSchemeChar c = true := by
  simp only [schemeCond, Bool.and_eq_true, decide_eq_true_eq] at h
  obtain ⟨⟨⟨ha, hb⟩, hc⟩, hd⟩ := h
  refine ⟨ha, ?_, hc, List.all_eq_true.mp hd⟩
  cases hs : s.takeWhile notColon with
  | nil => rw [hs] at hb; exact absurd hb (by simp)
  | cons a t => simp

/-- The scheme prefix re-splits to itself: `sc ++ ':' ++ body` has scheme
`sc` and rest `body` when `sc` is a well-formed, already-lowercased scheme. -/
theorem splitScheme_rebuild (sc body : List Char) (hne : sc ≠ [])
    (halpha : isAsciiAlpha (sc.headD ' ') = true)
    (hall : ∀ c ∈ sc, isSchemeChar c = true)
    (hlow : sc.map lowerChar = sc) :
    splitScheme (sc ++ ':' :: body) = (sc, body) := by
  have hcolon : ∀ c ∈ sc, notColon c = true :=
    fun c hc => isSchemeChar_notColon c (hall c hc)
  have hpre : (sc ++ ':' :: body).takeWhile notColon = sc := by
    rw [takeWhile_append_all notColon sc _ hcolon, List.takeWhile_cons,
      if_neg (by decide), List.append_nil]
  have hcond : schemeCond (sc ++ ':' :: body) = true := by
    simp only [schemeCond, hpre, Bool.and_eq_true, decide_eq_true_eq]
    refine ⟨⟨⟨?_, ?_⟩, halpha⟩, List.all_eq_true.mpr hall⟩
    · simp only [List.length_append, List.length_cons]
      omega
    · cases sc with
      | nil => exact absurd rfl hne
      | cons a t => rfl
  rw [splitScheme, if_pos hcond, hpre, hlow]
  have heq : sc ++ ':' :: body = (sc ++ [':']) ++ body := by simp
  rw [heq]
  have hlen : sc.length + 1 = (sc ++ [':']).length := by simp
  rw [hlen, List.drop_left]

theorem splitNetloc_no (s : List Char) (h : s.take 2 ≠ ['/', '/']) :
    splitNetloc s = .ok ([], s) := by
  rw [splitNetloc, if_neg h]

/-- The netloc re-splits to itself after `'//'` when the path part is
empty or begins with a delimiter. -/
theorem splitNetloc_rebuild (nl p : List Char)
    (hnl : ∀ c ∈ nl, notNetDelim c = true)
    (hbr : nl.contains '[' = nl.contains ']')
    (hp : p = [] ∨ notNetDelim (p.headD ' ') = false) :
    splitNetloc ('/' :: '/' :: (nl ++ p)) = .ok (nl, p) := by
  have htw : (nl ++ p).takeWhile notNetDelim = nl := by
    rcases p with _ | ⟨d, t⟩
    · rw [List.append_nil]
      exact takeWhile_all_eq _ _ hnl
    · rcases hp with hp | hh
      · exact absurd hp (by simp)
      · rw [takeWhile_append_all _ _ _ hnl, List.takeWhile_cons]
        simp only [List.headD_cons] at hh
        rw [if_neg (by simp [hh]), List.append_nil]
  have hdw : (nl ++ p).dropWhile notNetDelim = p := by
    rcases p with _ | ⟨d, t⟩
    · rw [List.append_nil]
      exact dropWhile_all_eq _ _ hnl
    · rcases hp with hp | hh
      · exact absurd hp (by simp)
      · rw [dropWhile_append_all _ _ _ hnl, List.dropWhile_cons]
        simp only [List.headD_cons] at hh
        rw [if_neg (by simp [hh])]
  have hdrop : ('/' :: '/' :: (nl ++ p)).drop 2 = nl ++ p := rfl
  rw [splitNetloc,
    if_pos (show List.take 2 ('/' :: '/' :: (nl ++ p)) = ['/', '/'] from rfl),
    hdrop, htw, hdw, if_neg (by rw [hbr]; simp)]

theorem splitFragment_clean (p : List Char) (h : ∀ c ∈ p, notHash c = true) :
    splitFragment p = (p, []) := by
  rw [splitFragment, takeWhile_all_eq _ _ h, dropWhile_all_eq _ _ h]
  rfl

theorem splitQuery_clean (p : List Char) (h : ∀ c ∈ p, notQuest c = true) :
    splitQuery p = (p, []) := by
  rw [splitQuery, takeWhile_all_eq _ _ h, dropWhile_all_eq _ _ h]
  rfl

theorem removeUnsafe_of_all (v : List Char) (h : ∀ c ∈ v, keepChar c = true) :
    removeUnsafe v = v :=
  List.filter_eq_self.mpr h

theorem map_lowerChar_head (pre : List Char) (hne : pre ≠ []) :
    (pre.map lowerChar).headD ' ' = lowerChar (pre.headD ' ') := by
  cases pre with
  | nil => exact absurd rfl hne
  | cons a t => rfl

theorem map_lowerChar_idem (l : List Char) :
    (l.map lowerChar).map lowerChar = l.map lowerChar := by
  rw [List.map_map]
  apply List.map_congr_left
  intro c _
  exact lowerChar_idem c

/-! ## Parse invariant and round trip -/

theorem splitNetloc_ok_elim (r1 nl r2 : List Char) (h : splitNetloc r1 = .ok (nl, r2)) :
    (r1.take 2 ≠ ['/', '/'] ∧ nl = [] ∧ r2 = r1)
    ∨ (r1.take 2 = ['/', '/'] ∧ nl = (r1.drop 2).takeWhile notNetDelim
        ∧ r2 = (r1.drop 2).dropWhile notNetDelim
        ∧ nl.contains '[' = nl.contains ']') := by
  by_cases ht2 : r1.take 2 = ['/', '/']
  · right
    rw [splitNetloc, if_pos ht2] at h
    by_cases hbr : (((r1.drop 2).takeWhile notNetDelim).contains '['
        != ((r1.drop 2).takeWhile notNetDelim).contains ']') = true
    · rw [if_pos hbr] at h
      exact absurd h (by simp)
    · rw [if_neg hbr] at h
      simp only [Except.ok.injEq, Prod.mk.injEq] at h
      obtain ⟨h1, h2⟩ := h
      rw [Bool.not_eq_true] at hbr
      refine ⟨ht2, h1.symm, h2.symm, ?_⟩
      rw [← h1]
      exact bne_eq_false_iff_eq.mp hbr
  · left
    rw [splitNetloc_no r1 ht2] at h
    simp only [Except.ok.injEq, Prod.mk.injEq] at h
    exact ⟨ht2, h.1.symm, h.2.symm⟩

theorem dropWhile_shape (p : Char → Bool) (l : List Char) :
    l.dropWhile p = [] ∨ p ((l.dropWhile p).headD ' ') = false := by
  rcases hd : l.dropWhile p with _ | ⟨d, t⟩
  · exact Or.inl rfl
  · right
    rw [List.headD_cons]
    exact dropWhile_head_false p l d t hd

/-- Path-shape transfer: the `#`/`?`-free prefix of a rest that is empty
or begins with a delimiter is itself empty or begins with a delimiter. -/
theorem path_shape (r2 : List Char)
    (hr2 : r2 = [] ∨ notNetDelim (r2.headD ' ') = false) :
    (r2.takeWhile notHash).takeWhile notQuest = []
    ∨ notNetDelim (((r2.takeWhile notHash).takeWhile notQuest).headD ' ') = false := by
  rcases hr2 with rfl | hh
  · exact Or.inl rfl
  · rcases hp : (r2.takeWhile notHash).takeWhile notQuest with _ | ⟨d, t⟩
    · exact Or.inl rfl
    · right
      obtain ⟨t1, ht1⟩ := takeWhile_head notQuest _ d t hp
      obtain ⟨t2, ht2⟩ := takeWhile_head notHash r2 d t1 ht1
      rw [ht2] at hh
      simpa using hh

/-- A path that is empty or begins with a delimiter (and contains no `#`
or `?`) fails the scheme test. -/
theorem schemeCond_of_path_shape (p : List Char)
    (hh : ∀ c ∈ p, notHash c = true) (hq : ∀ c ∈ p, notQuest c = true)
    (hs : p = [] ∨ notNetDelim (p.headD ' ') = false) :
    schemeCond p = false := by
  rcases hs with rfl | hd
  · rfl
  · rcases p with _ | ⟨d, t⟩
    · rfl
    · simp only [List.headD_cons] at hd
      have hds : d = '/' := netDelim_head_slash d hd (hh d (List.mem_cons_self d t))
        (hq d (List.mem_cons_self d t))
      subst hds
      exact schemeCond_cons_slash t

/-- Assembling `urlsplit` from the behaviour of its stages. -/
theorem urlsplit_eq (v sc' r1 nl' r2 : List Char)
    (h0 : removeUnsafe v = v)
    (h1 : splitScheme v = (sc', r1))
    (h2 : splitNetloc r1 = .ok (nl', r2))
    (h3 : ∀ c ∈ r2, notHash c = true) (h4 : ∀ c ∈ r2, notQuest c = true) :
    urlsplit v = .ok ⟨sc', nl', r2, [], []⟩ := by
  simp [urlsplit, h0, h1, h2, splitFragment_clean r2 h3, splitQuery_clean r2 h4]

/-- What the scheme stage guarantees. -/
theorem splitScheme_elim (u : List Char) (hk : ∀ c ∈ u, keepChar c = true) :
    (schemeCond u = false ∧ splitScheme u = ([], u))
    ∨ ((splitScheme u).1 ≠ []
        ∧ isAsciiAlpha ((splitScheme u).1.headD ' ') = true
        ∧ (∀ c ∈ (splitScheme u).1, isSchemeChar c = true)
        ∧ (splitScheme u).1.map lowerChar = (splitScheme u).1
        ∧ (∀ c ∈ (splitScheme u).1, keepChar c = true)
        ∧ (splitScheme u).2 ⊆ u) := by
  by_cases hsc : schemeCond u = true
  · right
    obtain ⟨hlt, hne, halpha, hall⟩ := schemeCond_elim u hsc
    rw [splitScheme_of_cond_true u hsc]
    refine ⟨?_, ?_, ?_, ?_, ?_, ?_⟩
    · simp only [ne_eq, List.map_eq_nil_iff]
      exact hne
    · rw [map_lowerChar_head _ hne]
      exact isAsciiAlpha_lowerChar _ halpha
    · intro c hc
      obtain ⟨c', hc', rfl⟩ := List.mem_map.mp hc
      exact isSchemeChar_lowerChar c' (hall c' hc')
    · exact map_lowerChar_idem _
    · intro c hc
      obtain ⟨c', hc', rfl⟩ := List.mem_map.mp hc
      exact keepChar_lowerChar c' (hk c' (mem_of_mem_takeWhile hc'))
    · exact List.drop_subset _ _
  · left
    have hf : schemeCond u = false := eq_false_of_ne_true hsc
    exact ⟨hf, splitScheme_of_cond_false u hf⟩

/-- The facts `urlsplit` guarantees about scheme, netloc and path. -/
def ParsedParts (sc nl p : List Char) : Prop :=
  (∀ c ∈ sc, keepChar c = true) ∧ (∀ c ∈ nl, keepChar c = true)
  ∧ (∀ c ∈ p, keepChar c = true)
  ∧ (sc = [] ∨ (sc ≠ [] ∧ isAsciiAlpha (sc.headD ' ') = true
      ∧ (∀ c ∈ sc, isSchemeChar c = true) ∧ sc.map lowerChar = sc))
  ∧ (∀ c ∈ nl, notNetDelim c = true)
  ∧ nl.contains '[' = nl.contains ']'
  ∧ (∀ c ∈ p, notHash c = true) ∧ (∀ c ∈ p, notQuest c = true)
  ∧ (nl ≠ [] → (p = [] ∨ notNetDelim (p.headD ' ') = false))
  ∧ (sc = [] ∧ nl = [] → schemeCond p = false)

/-- `urlsplit` establishes the invariant on the components it returns. -/
theorem urlsplit_parts (s : List Char) (r : SplitResult) (h : urlsplit s = .ok r) :
    ParsedParts r.scheme r.netloc r.path := by
  simp only [urlsplit] at h
  rcases hnl : splitNetloc (splitScheme (removeUnsafe s)).2 with e | ⟨nl, r2⟩
  · rw [hnl] at h
    exact absurd h (by simp)
  rw [hnl] at h
  simp only [Except.ok.injEq] at h
  subst h
  show ParsedParts (splitScheme (removeUnsafe s)).1 nl
    ((r2.takeWhile notHash).takeWhile notQuest)
  have hukeep : ∀ c ∈ removeUnsafe s, keepChar c = true :=
    fun c hc => (List.mem_filter.mp hc).2
  have hr1keep : ∀ c ∈ (splitScheme (removeUnsafe s)).2, keepChar c = true := by
    rcases splitScheme_elim (removeUnsafe s) hukeep with ⟨-, hss⟩ | ⟨-, -, -, -, -, hsub⟩
    · rw [hss]
      exact hukeep
    · exact fun c hc => hukeep c (hsub hc)
  have helim := splitNetloc_ok_elim _ nl r2 hnl
  have hnlsub : ∀ c ∈ nl, c ∈ (splitScheme (removeUnsafe s)).2 := by
    rcases helim with ⟨-, rfl, -⟩ | ⟨-, hnl2, -, -⟩
    · intro c hc
      exact absurd hc (List.not_mem_nil c)
    · rw [hnl2]
      intro c hc
      exact List.drop_subset _ _ (mem_of_mem_takeWhile hc)
  have hr2sub : ∀ c ∈ r2, c ∈ (splitScheme (removeUnsafe s)).2 := by
    rcases helim with ⟨-, -, rfl⟩ | ⟨-, -, hr22, -⟩
    · exact fun c hc => hc
    · rw [hr22]
      intro c hc
      exact List.drop_subset _ _ (mem_of_mem_dropWhile hc)
  have hnldelim : ∀ c ∈ nl, notNetDelim c = true := by
    rcases helim with ⟨-, rfl, -⟩ | ⟨-, hnl2, -, -⟩
    · intro c hc
      exact absurd hc (List.not_mem_nil c)
    · rw [hnl2]
      exact fun c hc => List.mem_takeWhile_imp hc
  have hbr : nl.contains '[' = nl.contains ']' := by
    rcases helim with ⟨-, rfl, -⟩ | ⟨-, -, -, hb⟩
    · rfl
    · exact hb
  have hr2shape : (splitScheme (removeUnsafe s)).2.take 2 = ['/', '/'] →
      (r2 = [] ∨ notNetDelim (r2.headD ' ') = false) := by
    intro ht2
    rcases helim with ⟨hne2, -, -⟩ | ⟨-, -, hr22, -⟩
    · exact absurd ht2 hne2
    · rw [hr22]
      exact dropWhile_shape _ _
  have hpsub : ∀ c ∈ (r2.takeWhile notHash).takeWhile notQuest, c ∈ r2 :=
    fun c hc => mem_of_mem_takeWhile (mem_of_mem_takeWhile hc)
  have hpH : ∀ c ∈ (r2.takeWhile notHash).takeWhile notQuest, notHash c = true :=
    fun c hc => List.mem_takeWhile_imp (mem_of_mem_takeWhile hc)
  have hpQ : ∀ c ∈ (r2.takeWhile notHash).takeWhile notQuest, notQuest c = true :=
    fun c hc => List.mem_takeWhile_imp hc
  have hinv9 : nl ≠ [] →
      ((r2.takeWhile notHash).takeWhile notQuest = []
        ∨ notNetDelim (((r2.takeWhile notHash).takeWhile notQuest).headD ' ') = false) := by
    intro hnlne
    rcases helim with ⟨-, rfl, -⟩ | ⟨ht2, -, -, -⟩
    · exact absurd rfl hnlne
    · exact path_shape r2 (hr2shape ht2)
  have hinv10 : (splitScheme (removeUnsafe s)).1 = [] ∧ nl = [] →
      schemeCond ((r2.takeWhile notHash).takeWhile notQuest) = false := by
    rintro ⟨hsc0, hnl0⟩
    rcases helim with ⟨-, -, hr2eq⟩ | ⟨ht2, -, -, -⟩
    · rcases splitScheme_elim (removeUnsafe s) hukeep with ⟨hcf, hss⟩ | ⟨hne, -⟩
      · have hr2u : r2 = removeUnsafe s := by rw [hr2eq, hss]
        apply schemeCond_append_false _
          ((r2.takeWhile notHash).dropWhile notQuest ++ r2.dropWhile notHash)
        have e1 : (r2.takeWhile notHash).takeWhile notQuest
            ++ (r2.takeWhile notHash).dropWhile notQuest = r2.takeWhile notHash :=
          List.takeWhile_append_dropWhile notQuest _
        have e2 : r2.takeWhile notHash ++ r2.dropWhile notHash = r2 :=
          List.takeWhile_append_dropWhile notHash r2
        rw [← List.append_assoc, e1, e2, hr2u]
        exact hcf
      · exact absurd hsc0 hne
    · exact schemeCond_of_path_shape _ hpH hpQ (path_shape r2 (hr2shape ht2))
  unfold ParsedParts
  refine ⟨?_, fun c hc => hr1keep c (hnlsub c hc),
    fun c hc => hr1keep c (hr2sub c (hpsub c hc)), ?_, hnldelim, hbr, hpH, hpQ,
    hinv9, hinv10⟩
  · rcases splitScheme_elim (removeUnsafe s) hukeep with ⟨-, hss⟩ | ⟨-, -, -, -, hsck, -⟩
    · rw [hss]
      intro c hc
      exact absurd hc (List.not_mem_nil c)
    · exact hsck
  · rcases splitScheme_elim (removeUnsafe s) hukeep with ⟨-, hss⟩ | ⟨hne, ha, hs, hl, -, -⟩
    · left
      rw [hss]
    · exact Or.inr ⟨hne, ha, hs, hl⟩

/-- Components satisfying the invariant re-split to themselves after
reassembly without query and fragment. -/
theorem urlsplit_rebuild (sc nl p : List Char) (hpp : ParsedParts sc nl p) :
    urlsplit (urlunsplit ⟨sc, nl, p, [], []⟩) = .ok ⟨sc, nl, p, [], []⟩ := by
  obtain ⟨k1, k2, k3, hshape, hnld, hbr, hph, hpq, hnlp, hscp⟩ := hpp
  have hbody : urlunsplit ⟨sc, nl, p, [], []⟩ =
      (if sc ≠ [] then
        sc ++ ':' :: (if nl ≠ [] ∨ (p ≠ [] ∧ p.take 2 = ['/', '/']) then
          ['/', '/'] ++ nl ++ (if p ≠ [] ∧ p.head? ≠ some '/' then '/' :: p else p)
        else p)
      else (if nl ≠ [] ∨ (p ≠ [] ∧ p.take 2 = ['/', '/']) then
          ['/', '/'] ++ nl ++ (if p ≠ [] ∧ p.head? ≠ some '/' then '/' :: p else p)
        else p)) := by
    simp only [urlunsplit]
    rw [if_neg (by simp), if_neg (by simp)]
  by_cases hcase : nl ≠ [] ∨ (p ≠ [] ∧ p.take 2 = ['/', '/'])
  · have hpdelim : p = [] ∨ notNetDelim (p.headD ' ') = false := by
      rcases hcase with hnl | ⟨hpne, hp2⟩
      · exact hnlp hnl
      · rcases p with _ | ⟨d, t⟩
        · exact Or.inl rfl
        · right
          rcases t with _ | ⟨d2, t2⟩
          · simp at hp2
          · have hdd : d = '/' ∧ d2 = '/' := by simpa using hp2
            rw [List.headD_cons, hdd.1]
            decide
    have hppx : (if p ≠ [] ∧ p.head? ≠ some '/' then '/' :: p else p) = p := by
      rcases p with _ | ⟨d, t⟩
      · simp
      · rcases hpdelim with habs | hh
        · exact absurd habs (by simp)
        · simp only [List.headD_cons] at hh
          have hds : d = '/' := netDelim_head_slash d hh
            (hph d (List.mem_cons_self d t)) (hpq d (List.mem_cons_self d t))
          subst hds
          rw [if_neg (by simp)]
    have hnet : splitNetloc ('/' :: '/' :: (nl ++ p)) = .ok (nl, p) :=
      splitNetloc_rebuild nl p hnld hbr hpdelim
    rcases hshape with rfl | ⟨hne, halpha, hall, hlow⟩
    · rw [hbody, if_neg (by simp), if_pos hcase, hppx]
      have hkeep : ∀ c ∈ ('/' :: '/' :: (nl ++ p)), keepChar c = true := by
        intro c hc
        rcases List.mem_cons.mp hc with rfl | hc
        · decide
        rcases List.mem_cons.mp hc with rfl | hc
        · decide
        rcases List.mem_append.mp hc with hc | hc
        · exact k2 c hc
        · exact k3 c hc
      exact urlsplit_eq _ [] ('/' :: '/' :: (nl ++ p)) nl p
        (removeUnsafe_of_all _ hkeep)
        (splitScheme_of_cond_false _ (schemeCond_cons_slash _)) hnet hph hpq
    · rw [hbody, if_pos hne, if_pos hcase, hppx]
      have hkeep : ∀ c ∈ (sc ++ ':' :: '/' :: '/' :: (nl ++ p)), keepChar c = true := by
        intro c hc
        rcases List.mem_append.mp hc with hc | hc
        · exact k1 c hc
        rcases List.mem_cons.mp hc with rfl | hc
        · decide
        rcases List.mem_cons.mp hc with rfl | hc
        · decide
        rcases List.mem_cons.mp hc with rfl | hc
        · decide
        rcases List.mem_append.mp hc with hc | hc
        · exact k2 c hc
        · exact k3 c hc
      exact urlsplit_eq _ sc ('/' :: '/' :: (nl ++ p)) nl p
        (removeUnsafe_of_all _ hkeep)
        (splitScheme_rebuild sc _ hne halpha hall hlow) hnet hph hpq
  · have hnl0 : nl = [] := by
      by_contra hx
      exact hcase (Or.inl hx)
    subst hnl0
    have htake2 : p.take 2 ≠ ['/', '/'] := by
      rcases p with _ | ⟨d, t⟩
      · simp
      · intro hx
        exact hcase (Or.inr ⟨by simp, hx⟩)
    have hnot : ¬(([] : List Char) ≠ [] ∨ (p ≠ [] ∧ p.take 2 = ['/', '/'])) := by
      rintro (hx | ⟨-, hx2⟩)
      · exact hx rfl
      · exact htake2 hx2
    have hnet : splitNetloc p = .ok ([], p) := splitNetloc_no p htake2
    rcases hshape with hsc0 | ⟨hne, halpha, hall, hlow⟩
    · subst hsc0
      rw [hbody, if_neg (by simp), if_neg hnot]
      exact urlsplit_eq _ [] p [] p (removeUnsafe_of_all _ k3)
        (splitScheme_of_cond_false _ (hscp ⟨rfl, rfl⟩)) hnet hph hpq
    · rw [hbody, if_pos hne, if_neg hnot]
      have hkeep : ∀ c ∈ (sc ++ ':' :: p), keepChar c = true := by
        intro c hc
        rcases List.mem_append.mp hc with hc | hc
        · exact k1 c hc
        rcases List.mem_cons.mp hc with rfl | hc
        · decide
        · exact k3 c hc
      exact urlsplit_eq _ sc p [] p (removeUnsafe_of_all _ hkeep)
        (splitScheme_rebuild sc p hne halpha hall hlow) hnet hph hpq

/-! ## Appending a query string -/

/-- The appended query suffix `"?x=1"` of the idempotence claim. -/
def qx : List Char := ['?', 'x', '=', '1']

theorem removeUnsafe_append_qx (s : List Char) :
    removeUnsafe (s ++ qx) = removeUnsafe s ++ qx := by
  rw [removeUnsafe, List.filter_append]
  rfl

theorem splitScheme_append_qx (a : List Char) :
    splitScheme (a ++ qx) = ((splitScheme a).1, (splitScheme a).2 ++ qx) := by
  by_cases hall : ∀ x ∈ a, notColon x = true
  · have hallq : ∀ x ∈ a ++ qx, notColon x = true := by
      intro x hx
      rcases List.mem_append.mp hx with hx | hx
      · exact hall x hx
      · simp only [qx, List.mem_cons, List.not_mem_nil, or_false] at hx
        rcases hx with rfl | rfl | rfl | rfl <;> decide
    have h1 : schemeCond (a ++ qx) = false := by
      simp only [schemeCond]
      rw [takeWhile_all_eq _ _ hallq]
      simp
    have h2 : schemeCond a = false := by
      simp only [schemeCond]
      rw [takeWhile_all_eq _ _ hall]
      simp
    rw [splitScheme_of_cond_false _ h1, splitScheme_of_cond_false _ h2]
  · have hpre : (a ++ qx).takeWhile notColon = a.takeWhile notColon :=
      takeWhile_append_stop _ _ _ hall
    have hlt : (a.takeWhile notColon).length < a.length := length_takeWhile_lt _ _ hall
    have hcond : schemeCond (a ++ qx) = schemeCond a := by
      simp only [schemeCond, hpre]
      have hx1 : decide ((a.takeWhile notColon).length < (a ++ qx).length) = true := by
        simp only [List.length_append]
        exact decide_eq_true (by omega)
      have hx2 : decide ((a.takeWhile notColon).length < a.length) = true :=
        decide_eq_true hlt
      rw [hx1, hx2]
    by_cases hc : schemeCond a = true
    · rw [splitScheme_of_cond_true _ hc, splitScheme_of_cond_true _ (hcond.trans hc),
        hpre]
      simp only [Prod.mk.injEq]
      refine ⟨trivial, ?_⟩
      rw [List.drop_append_of_le_length (by omega)]
    · have hc' : schemeCond a = false := eq_false_of_ne_true hc
      rw [splitScheme_of_cond_false _ hc', splitScheme_of_cond_false _ (hcond.trans hc')]

theorem splitScheme_append_qx_fst (a : List Char) :
    (splitScheme (a ++ qx)).1 = (splitScheme a).1 := by
  rw [splitScheme_append_qx a]

theorem splitScheme_append_qx_snd (a : List Char) :
    (splitScheme (a ++ qx)).2 = (splitScheme a).2 ++ qx := by
  rw [splitScheme_append_qx a]

theorem splitNetloc_append_qx (r : List Char) :
    splitNetloc (r ++ qx) = (splitNetloc r).map (fun x => (x.1, x.2 ++ qx)) := by
  by_cases ht2 : r.take 2 = ['/', '/']
  · obtain ⟨t, rfl⟩ : ∃ t, r = '/' :: '/' :: t := by
      rcases r with _ | ⟨c1, _ | ⟨c2, t⟩⟩
      · simp at ht2
      · simp [List.take] at ht2
      · have hx : c1 = '/' ∧ c2 = '/' := by simp [List.take] at ht2; exact ht2
        exact ⟨t, by rw [hx.1, hx.2]⟩
    have htw : (t ++ qx).takeWhile notNetDelim = t.takeWhile notNetDelim := by
      by_cases hallt : ∀ x ∈ t, notNetDelim x = true
      · rw [takeWhile_append_all _ _ _ hallt, takeWhile_all_eq _ _ hallt,
          show qx.takeWhile notNetDelim = [] from rfl, List.append_nil]
      · exact takeWhile_append_stop _ _ _ hallt
    have hdw : (t ++ qx).dropWhile notNetDelim = t.dropWhile notNetDelim ++ qx := by
      by_cases hallt : ∀ x ∈ t, notNetDelim x = true
      · rw [dropWhile_append_all _ _ _ hallt, dropWhile_all_eq _ _ hallt,
          show qx.dropWhile notNetDelim = qx from rfl]
        rfl
      · exact dropWhile_append_stop _ _ _ hallt
    have hL : ('/' :: '/' :: t) ++ qx = '/' :: '/' :: (t ++ qx) := rfl
    rw [hL, splitNetloc,
      if_pos (show ('/' :: '/' :: (t ++ qx)).take 2 = ['/', '/'] from rfl),
      splitNetloc,
      if_pos (show ('/' :: '/' :: t).take 2 = ['/', '/'] from rfl)]
    have hd1 : ('/' :: '/' :: (t ++ qx)).drop 2 = t ++ qx := rfl
    have hd2 : ('/' :: '/' :: t).drop 2 = t := rfl
    rw [hd1, hd2, htw, hdw]
    by_cases hbb : ((t.takeWhile notNetDelim).contains '['
        != (t.takeWhile notNetDelim).contains ']') = true
    · rw [if_pos hbb, if_pos hbb]
      rfl
    · rw [if_neg hbb, if_neg hbb]
      rfl
  · have ht2' : (r ++ qx).take 2 ≠ ['/', '/'] := by
      rcases r with _ | ⟨c1, _ | ⟨c2, t⟩⟩
      · decide
      · intro hx
        simp [qx, List.take] at hx
      · intro hx
        have hx2 : c1 = '/' ∧ c2 = '/' := by simpa [List.take] using hx
        exact ht2 (by simp [List.take, hx2.1, hx2.2])
    rw [splitNetloc_no _ ht2', splitNetloc_no _ ht2]
    rfl

theorem path_append_qx (r2 : List Char) :
    ((r2 ++ qx).takeWhile notHash).takeWhile notQuest
      = (r2.takeWhile notHash).takeWhile notQuest := by
  by_cases hH : ∀ x ∈ r2, notHash x = true
  · rw [takeWhile_append_all _ _ _ hH, show qx.takeWhile notHash = qx from rfl,
      takeWhile_all_eq _ _ hH]
    by_cases hQ : ∀ x ∈ r2, notQuest x = true
    · rw [takeWhile_append_all _ _ _ hQ, show qx.takeWhile notQuest = [] from rfl,
        List.append_nil, takeWhile_all_eq _ _ hQ]
    · rw [takeWhile_append_stop _ _ _ hQ]
  · rw [takeWhile_append_stop _ _ _ hH]

/-- `urlsplit` written as one match, for rewriting. -/
theorem urlsplit_as (v : List Char) :
    urlsplit v = (match splitNetloc (splitScheme (removeUnsafe v)).2 with
      | .error e => .error e
      | .ok (nl, r2) => .ok ⟨(splitScheme (removeUnsafe v)).1, nl,
          (r2.takeWhile notHash).takeWhile notQuest,
          ((r2.takeWhile notHash).dropWhile notQuest).drop 1,
          (r2.dropWhile notHash).drop 1⟩) := by
  simp only [urlsplit]
  rcases splitNetloc (splitScheme (removeUnsafe v)).2 with e | ⟨nl, r2⟩ <;> rfl

/-- Appending `"?x=1"` to a URL never changes the scheme, netloc or path
that `urlsplit` extracts (nor whether it raises). -/
theorem urlsplit_append_query (s : List Char) :
    (urlsplit (s ++ qx)).map (fun r => (r.scheme, r.netloc, r.path))
      = (urlsplit s).map (fun r => (r.scheme, r.netloc, r.path)) := by
  rw [urlsplit_as (s ++ qx), urlsplit_as s, removeUnsafe_append_qx s,
    splitScheme_append_qx_fst, splitScheme_append_qx_snd, splitNetloc_append_qx]
  rcases hns : splitNetloc ((splitScheme (removeUnsafe s)).2) with e | ⟨nl, r2⟩
  · rfl
  · simp only [Except.map]
    rw [path_append_qx]

/-- C8: URL normalization (lines 141–142 / 265–266) is idempotent;
appending `"?x=1"` to the URL does not change the result; and the
normalized output splits into the same scheme, netloc and path as the
input with empty query and fragment. -/
theorem C8_normalize_idempotent (u : List Char) :
    (normalizeUrl u).bind normalizeUrl = normalizeUrl u
    ∧ normalizeUrl (u ++ "?x=1".toList) = normalizeUrl u
    ∧ (∀ r v, urlsplit u = .ok r → normalizeUrl u = .ok v →
        urlsplit v = .ok ⟨r.scheme, r.netloc, r.path, [], []⟩) := by
  have hround : ∀ r, urlsplit u = .ok r →
      urlsplit (urlunsplit ⟨r.scheme, r.netloc, r.path, [], []⟩)
        = .ok ⟨r.scheme, r.netloc, r.path, [], []⟩ :=
    fun r h => urlsplit_rebuild _ _ _ (urlsplit_parts u r h)
  refine ⟨?_, ?_, ?_⟩
  · rcases hu : urlsplit u with e | r
    · simp [normalizeUrl, hu, Except.map, Except.bind]
    · have h1 : normalizeUrl u
          = .ok (urlunsplit ⟨r.scheme, r.netloc, r.path, [], []⟩) := by
        simp [normalizeUrl, hu, Except.map]
      rw [h1]
      show normalizeUrl (urlunsplit ⟨r.scheme, r.netloc, r.path, [], []⟩) = _
      rw [normalizeUrl, hround r hu]
      rfl
  · have hq := urlsplit_append_query u
    have hqx : "?x=1".toList = qx := rfl
    rw [hqx]
    rcases hu : urlsplit u with e | r
    · rcases hu2 : urlsplit (u ++ qx) with e2 | r2
      · rw [hu, hu2] at hq
        simp only [Except.map, Except.error.injEq] at hq
        rw [normalizeUrl, normalizeUrl, hu, hu2]
        simp [Except.map, hq]
      · rw [hu, hu2] at hq
        simp only [Except.map] at hq
        exact absurd hq (by simp)
    · rcases hu2 : urlsplit (u ++ qx) with e2 | r2
      · rw [hu, hu2] at hq
        simp only [Except.map] at hq
        exact absurd hq (by simp)
      · rw [hu, hu2] at hq
        simp only [Except.map, Except.ok.injEq, Prod.mk.injEq] at hq
        obtain ⟨h1, h2, h3⟩ := hq
        rw [normalizeUrl, normalizeUrl, hu, hu2]
        simp only [Except.map, Except.ok.injEq]
        rw [h1, h2, h3]
  · intro r v hu hv
    rw [normalizeUrl, hu] at hv
    simp only [Except.map, Except.ok.injEq] at hv
    rw [← hv]
    exact hround r hu

/-- Witness for C8 at a concrete product URL: normalizing
`https://tiki.vn/p/abc?spid=1#frag` yields a URL whose split has the same
scheme, host and path and empty query and fragment. -/
theorem C8_normalize_idempotent_witness :
    urlsplit ("https://tiki.vn/p/abc".toList)
      = .ok ⟨"https".toList, "tiki.vn".toList, "/p/abc".toList, [], []⟩ :=
  (C8_normalize_idempotent ("https://tiki.vn/p/abc?spid=1#frag".toList)).2.2
    ⟨"https".toList, "tiki.vn".toList, "/p/abc".toList, "spid=1".toList,
      "frag".toList⟩
    ("https://tiki.vn/p/abc".toList) rfl rfl

/-! ## Claim C9: discovery-time dedup -/

theorem nub_nodup {α : Type _} [DecidableEq α] (l : List α) : (nub l).Nodup := by
  induction l with
  | nil => exact List.nodup_nil
  | cons x t ih =>
      rw [nub]
      refine List.Nodup.cons ?_ (ih.filter _)
      intro hx
      have := List.of_mem_filter hx
      simp at this

theorem mem_nub {α : Type _} [DecidableEq α] (l : List α) (x : α) :
    x ∈ nub l ↔ x ∈ l := by
  induction l with
  | nil => rfl
  | cons a t ih =>
      rw [nub]
      by_cases hxa : x = a
      · subst hxa
        simp
      · simp only [List.mem_cons, hxa, false_or]
        rw [← ih]
        constructor
        · exact fun hx => List.mem_of_mem_filter hx
        · intro hx
          exact List.mem_filter.mpr ⟨hx, decide_eq_true hxa⟩

theorem nub_toFinset {α : Type _} [DecidableEq α] (l : List α) :
    (nub l).toFinset = l.toFinset := by
  ext x
  simp [List.mem_toFinset, mem_nub]

/-- The dedup loop, run on URLs whose normalization succeeds, returns the
accumulator extended by the not-yet-seen distinct canonical forms in
first-occurrence order. -/
theorem dedup_go_eq (urls : List (List Char)) :
    ∀ acc : List (List Char), (∀ u ∈ urls, (normalizeUrl u).isOk = true) →
      dedup_go urls acc
        = .ok (acc ++
            (nub (urls.filterMap (fun v => (normalizeUrl v).toOption))).filter
              (fun y => y ∉ acc)) := by
  induction urls with
  | nil =>
      intro acc h
      simp [dedup_go, nub]
  | cons u rest ih =>
      intro acc h
      have hu := h u (List.mem_cons_self u rest)
      rcases hnu : normalizeUrl u with e | nq
      · rw [hnu] at hu
        exact absurd hu (by simp [Except.isOk, Except.toBool])
      · have hfm : (u :: rest).filterMap (fun v => (normalizeUrl v).toOption)
            = nq :: rest.filterMap (fun v => (normalizeUrl v).toOption) := by
          rw [List.filterMap_cons]
          simp [hnu, Except.toOption]
        have hrest : ∀ v ∈ rest, (normalizeUrl v).isOk = true :=
          fun v hv => h v (List.mem_cons_of_mem u hv)
        simp only [dedup_go, hnu, hfm]
        by_cases hmem : nq ∈ acc
        · rw [if_pos hmem, ih acc hrest]
          congr 1
          rw [nub, List.filter_cons, if_neg (by simp [hmem]), List.filter_filter]
          congr 1
          refine List.filter_congr ?_
          intro x hx
          by_cases hxa : x ∈ acc
          · simp [hxa]
          · have hxq : x ≠ nq := fun he => hxa (he ▸ hmem)
            simp [hxa, hxq]
        · rw [if_neg hmem, ih (acc ++ [nq]) hrest]
          congr 1
          rw [nub, List.filter_cons, if_pos (by simp [hmem]), List.filter_filter,
            List.append_assoc, List.singleton_append]
          congr 1
          congr 1
          refine List.filter_congr ?_
          intro x hx
          by_cases hxq : x = nq
          · subst hxq
            simp
          · by_cases hxa : x ∈ acc
            · simp [hxa]
            · simp [hxa, hxq]

/-- C9: when every discovered URL normalizes (the canonical forms exist)
and there are exactly `K` distinct canonical forms, discovery dedup
returns exactly the `K` distinct canonical forms, ordered by the first
occurrence of each canonical form (`nub`, which keeps the first copy of
each value and drops later ones). -/
theorem C9_dedup_first_occurrence (urls : List (List Char)) (K : Nat)
    (hok : ∀ u ∈ urls, (normalizeUrl u).isOk = true)
    (hK : (urls.filterMap (fun v => (normalizeUrl v).toOption)).toFinset.card = K) :
    scrape_dedup urls
      = .ok (nub (urls.filterMap (fun v => (normalizeUrl v).toOption)))
    ∧ (nub (urls.filterMap (fun v => (normalizeUrl v).toOption))).Nodup
    ∧ (nub (urls.filterMap (fun v => (normalizeUrl v).toOption))).length = K
    ∧ ∀ x, x ∈ nub (urls.filterMap (fun v => (normalizeUrl v).toOption))
        ↔ x ∈ urls.filterMap (fun v => (normalizeUrl v).toOption) := by
  refine ⟨?_, nub_nodup _, ?_, fun x => mem_nub _ x⟩
  · rw [scrape_dedup, dedup_go_eq urls [] hok]
    congr 1
    rw [List.nil_append]
    refine List.filter_eq_self.mpr ?_
    intro a ha
    exact decide_eq_true (by simp)
  · rw [← hK, ← nub_toFinset (urls.filterMap (fun v => (normalizeUrl v).toOption))]
    exact (List.toFinset_card_of_nodup (nub_nodup _)).symm

/-- Witness for C9: three raw URLs with two distinct canonical forms give
exactly those two canonical URLs, in first-occurrence order. -/
theorem C9_dedup_first_occurrence_witness :
    scrape_dedup ["https://a/x?q=1".toList, "https://a/x".toList, "https://a/y".toList]
      = .ok ["https://a/x".toList, "https://a/y".toList] := by
  have h := C9_dedup_first_occurrence
    ["https://a/x?q=1".toList, "https://a/x".toList, "https://a/y".toList] 2
    (by decide) (by decide)
  exact h.1.trans (by rfl)
